import Mathlib

/-
Verification of the graphRAG retrieval core: a shallow embedding of the
cache layer (nano_graphrag/_storage/vdb_nanovectordb.py,
nano_graphrag/graphrag.py), of the graph index and traversal engine
(graph_index.py) and of the community cache (server.py), together with
theorems settling the specification claims.

Modelling conventions:
- Python dicts are insertion-ordered association lists (`List (K × V)`);
  `setAssoc` is `d[k] = v` (update in place, append when fresh),
  `lookupAssoc` is `d.get(k)`, `eraseAssoc` is `del d[k]`.
- Wall-clock timestamps (`time.time()`) are natural numbers passed in
  explicitly; `now - ts > ttl` is modelled with truncated subtraction,
  which agrees with the Python float comparison whenever `ts ≤ now`
  (and both sides are false when `now < ts`).
- Python float weights: every weight occurring in the program
  (RELATIONSHIP_WEIGHTS values, ENTITY_TYPE_PRIORITY/10) is an exact
  multiple of 0.1, so traversal weights are represented in tenths as
  naturals; all comparisons used by the claims are preserved.
-/

namespace GraphRAGSpec

/-! ## Association-list primitives (Python dict model) -/

def lookupAssoc [DecidableEq K] : List (K × V) → K → Option V
  | [], _ => none
  | (k2, v2) :: rest, k => if k = k2 then some v2 else lookupAssoc rest k

def setAssoc [DecidableEq K] : List (K × V) → K → V → List (K × V)
  | [], k, v => [(k, v)]
  | (k2, v2) :: rest, k, v =>
    if k = k2 then (k2, v) :: rest else (k2, v2) :: setAssoc rest k v

def eraseAssoc [DecidableEq K] : List (K × V) → K → List (K × V)
  | [], _ => []
  | (k2, v2) :: rest, k =>
    if k = k2 then rest else (k2, v2) :: eraseAssoc rest k

/-- `defaultdict(list)`-style `d[k].append(v)`: the key is created at the end
of the dict on first use, otherwise the existing list is extended. -/
def appendAssoc [DecidableEq K] : List (K × List V) → K → V → List (K × List V)
  | [], k, v => [(k, [v])]
  | (k2, l) :: rest, k, v =>
    if k = k2 then (k2, l ++ [v]) :: rest else (k2, l) :: appendAssoc rest k v

theorem lookupAssoc_setAssoc [DecidableEq K] (l : List (K × V)) (k k' : K) (v : V) :
    lookupAssoc (setAssoc l k v) k' = if k' = k then some v else lookupAssoc l k' := by
  induction l with
  | nil =>
    by_cases h : k' = k <;> simp [setAssoc, lookupAssoc, h]
  | cons p rest ih =>
    obtain ⟨k2, v2⟩ := p
    by_cases h1 : k = k2
    · subst h1
      by_cases h2 : k' = k <;> simp [setAssoc, lookupAssoc, h2]
    · by_cases h2 : k' = k2
      · subst h2
        have : ¬ k' = k := fun h => h1 h.symm
        simp [setAssoc, lookupAssoc, h1, this]
      · simp [setAssoc, lookupAssoc, h1, h2, ih]

theorem lookupAssoc_append_left [DecidableEq K] (l l2 : List (K × V)) (k : K) (v : V)
    (h : lookupAssoc l k = some v) : lookupAssoc (l ++ l2) k = some v := by
  induction l with
  | nil => simp [lookupAssoc] at h
  | cons p rest ih =>
    obtain ⟨k2, v2⟩ := p
    by_cases h2 : k = k2
    · simp [lookupAssoc, h2] at h ⊢; exact h
    · simp [lookupAssoc, h2] at h ⊢; exact ih h

theorem lookupAssoc_mem [DecidableEq K] (l : List (K × V)) (k : K) (v : V)
    (h : lookupAssoc l k = some v) : (k, v) ∈ l := by
  induction l with
  | nil => simp [lookupAssoc] at h
  | cons p rest ih =>
    obtain ⟨k2, v2⟩ := p
    by_cases h2 : k = k2
    · subst h2
      simp [lookupAssoc] at h
      simp [h]
    · simp [lookupAssoc, h2] at h
      exact List.mem_cons_of_mem _ (ih h)

theorem lookupAssoc_isSome_iff_mem_keys [DecidableEq K] (l : List (K × V)) (k : K) :
    (lookupAssoc l k).isSome ↔ k ∈ l.map Prod.fst := by
  induction l with
  | nil => simp [lookupAssoc]
  | cons p rest ih =>
    obtain ⟨k2, v2⟩ := p
    by_cases h2 : k = k2
    · subst h2; simp [lookupAssoc]
    · simp [lookupAssoc, h2, ih, Ne.symm h2]

theorem lookupAssoc_eraseAssoc_self [DecidableEq K] (l : List (K × V)) (k : K)
    (hnd : (l.map Prod.fst).Nodup) : lookupAssoc (eraseAssoc l k) k = none := by
  induction l with
  | nil => simp [eraseAssoc, lookupAssoc]
  | cons p rest ih =>
    obtain ⟨k2, v2⟩ := p
    simp only [List.map_cons, List.nodup_cons] at hnd
    by_cases h2 : k = k2
    · subst h2
      simp only [eraseAssoc, if_pos rfl]
      cases hcase : lookupAssoc rest k with
      | none => exact hcase
      | some v =>
        exact absurd ((lookupAssoc_isSome_iff_mem_keys rest k).mp (by simp [hcase])) hnd.1
    · simp [eraseAssoc, lookupAssoc, h2, ih hnd.2]

theorem eraseAssoc_length_of_mem [DecidableEq K] (l : List (K × V)) (k : K)
    (h : k ∈ l.map Prod.fst) : (eraseAssoc l k).length + 1 = l.length := by
  induction l with
  | nil => simp at h
  | cons p rest ih =>
    obtain ⟨k2, v2⟩ := p
    by_cases h2 : k = k2
    · simp [eraseAssoc, h2]
    · simp only [List.map_cons, List.mem_cons] at h
      rcases h with h | h
      · exact absurd h h2
      · simp [eraseAssoc, h2, ih h]

theorem mem_keys_eraseAssoc [DecidableEq K] (l : List (K × V)) (k k' : K)
    (hne : k' ≠ k) : k' ∈ (eraseAssoc l k).map Prod.fst ↔ k' ∈ l.map Prod.fst := by
  induction l with
  | nil => simp [eraseAssoc]
  | cons p rest ih =>
    obtain ⟨k2, v2⟩ := p
    by_cases h2 : k = k2
    · subst h2
      simp [eraseAssoc, hne]
    · simp [eraseAssoc, h2, ih]

theorem nodup_keys_eraseAssoc [DecidableEq K] (l : List (K × V)) (k : K)
    (hnd : (l.map Prod.fst).Nodup) : ((eraseAssoc l k).map Prod.fst).Nodup := by
  induction l with
  | nil => simp [eraseAssoc]
  | cons p rest ih =>
    obtain ⟨k2, v2⟩ := p
    simp only [List.map_cons, List.nodup_cons] at hnd
    by_cases h2 : k = k2
    · simpa [eraseAssoc, h2] using hnd.2
    · rw [eraseAssoc, if_neg h2]
      refine List.nodup_cons.mpr ⟨?_, ih hnd.2⟩
      intro hmem
      exact hnd.1 ((mem_keys_eraseAssoc rest k k2 (fun hk => h2 hk.symm)).mp hmem)

theorem lookupAssoc_setAssoc_fresh_length [DecidableEq K] (l : List (K × V)) (k : K) (v : V)
    (h : lookupAssoc l k = none) : (setAssoc l k v).length = l.length + 1 := by
  induction l with
  | nil => simp [setAssoc]
  | cons p rest ih =>
    obtain ⟨k2, v2⟩ := p
    by_cases h2 : k = k2
    · simp [lookupAssoc, h2] at h
    · simp only [lookupAssoc, if_neg h2] at h
      simp [setAssoc, h2, ih h]

/-! ## EmbeddingCache (nano_graphrag/_storage/vdb_nanovectordb.py)

`_cache : Dict[str, Tuple[np.ndarray, float]]` maps a hash key to
`(embedding, timestamp)`.  We model the dict as an association list of
`(key, value, timestamp)` triples and keep the key and value types
abstract (`_hash_text` key derivation is outside the claims). -/

structure EmbeddingCache (K V : Type) where
  cache : List (K × V × Nat)
  ttlSeconds : Nat
  maxEntries : Nat
  hits : Nat
  misses : Nat

/-- `EmbeddingCache(ttl_seconds=86400, max_entries=10000)`. -/
def EmbeddingCache.init (K V : Type) : EmbeddingCache K V :=
  { cache := [], ttlSeconds := 86400, maxEntries := 10000, hits := 0, misses := 0 }

/-- `min(self._cache.keys(), key=lambda k: self._cache[k][1])`: the first key
(in dict order) holding the smallest timestamp.  Python raises on an empty
dict; the claims only use it on non-empty caches. -/
def oldestEntry {K V : Type} : List (K × V × Nat) → Option (K × Nat)
  | [] => none
  | (k, _, t) :: rest =>
    match oldestEntry rest with
    | none => some (k, t)
    | some (k2, t2) => if t ≤ t2 then some (k, t) else some (k2, t2)

/-- `EmbeddingCache.get`: TTL is enforced lazily; an expired entry is deleted
and counted as a miss.  Returns the Python return value and the state after
the call. -/
def EmbeddingCache.get [DecidableEq K] (c : EmbeddingCache K V) (key : K) (now : Nat) :
    Option V × EmbeddingCache K V :=
  match lookupAssoc c.cache key with
  | none => (none, { c with misses := c.misses + 1 })
  | some (v, ts) =>
    if c.ttlSeconds < now - ts then
      (none, { c with cache := eraseAssoc c.cache key, misses := c.misses + 1 })
    else
      (some v, { c with hits := c.hits + 1 })

/-- `EmbeddingCache.put`: when the cache has reached `max_entries` the single
entry with the smallest timestamp is deleted, then the new entry is stored
with the current timestamp. -/
def EmbeddingCache.put [DecidableEq K] (c : EmbeddingCache K V) (key : K) (v : V) (now : Nat) :
    EmbeddingCache K V :=
  let c1 :=
    if c.maxEntries ≤ c.cache.length then
      match oldestEntry c.cache with
      | some (k0, _) => { c with cache := eraseAssoc c.cache k0 }
      | none => c
    else c
  { c1 with cache := setAssoc c1.cache key (v, now) }

/-! ## LLMResponseCacheSingleton (nano_graphrag/graphrag.py)

The singleton keeps two parallel dicts `_cache : key -> value` and
`_timestamps : key -> float` whose key sets always coincide (every write
and delete touches both).  We merge them into one association list of
`(key, value, timestamp)` triples.  `_ttl_seconds = 3600` and
`_max_entries = 1000` are class attributes. -/

structure LLMResponseCache (K V : Type) where
  cache : List (K × V × Nat)
  ttlSeconds : Nat
  maxEntries : Nat
  hits : Nat
  misses : Nat

def LLMResponseCache.init (K V : Type) : LLMResponseCache K V :=
  { cache := [], ttlSeconds := 3600, maxEntries := 1000, hits := 0, misses := 0 }

/-- `sorted(self._timestamps.keys(), key=lambda k: self._timestamps[k])`:
keys stably sorted by ascending timestamp. -/
def keysByTimestamp {K V : Type} (l : List (K × V × Nat)) : List K :=
  (List.insertionSort (fun a b => a.2 ≤ b.2) (l.map (fun e => (e.1, e.2.2)))).map Prod.fst

def eraseAll [DecidableEq K] (l : List (K × V)) (ks : List K) : List (K × V) :=
  ks.foldl (fun acc k => eraseAssoc acc k) l

/-- `LLMResponseCacheSingleton.get`: same lazy TTL treatment as the
embedding cache (`_timestamps.get(key, 0)` always finds the timestamp when
the key is cached, by the parallel-dict invariant). -/
def LLMResponseCache.get [DecidableEq K] (c : LLMResponseCache K V) (key : K) (now : Nat) :
    Option V × LLMResponseCache K V :=
  match lookupAssoc c.cache key with
  | none => (none, { c with misses := c.misses + 1 })
  | some (v, ts) =>
    if c.ttlSeconds < now - ts then
      (none, { c with cache := eraseAssoc c.cache key, misses := c.misses + 1 })
    else
      (some v, { c with hits := c.hits + 1 })

/-- `LLMResponseCacheSingleton.set`: at capacity it removes the oldest 10%
of the entries (`sorted_keys[:len(sorted_keys) // 10]`), not a single
entry, then stores the new value with the current timestamp. -/
def LLMResponseCache.set [DecidableEq K] (c : LLMResponseCache K V) (key : K) (v : V) (now : Nat) :
    LLMResponseCache K V :=
  let c1 :=
    if c.maxEntries ≤ c.cache.length then
      let sortedKeys := keysByTimestamp c.cache
      { c with cache := eraseAll c.cache (sortedKeys.take (sortedKeys.length / 10)) }
    else c
  { c1 with cache := setAssoc c1.cache key (v, now) }

theorem oldestEntry_eq_none_iff {K V : Type} (l : List (K × V × Nat)) :
    oldestEntry l = none ↔ l = [] := by
  cases l with
  | nil => simp [oldestEntry]
  | cons e rest =>
    obtain ⟨k, v, t⟩ := e
    simp only [oldestEntry]
    cases oldestEntry rest with
    | none => simp
    | some p =>
      obtain ⟨k2, t2⟩ := p
      by_cases h : t ≤ t2 <;> simp [h]

theorem oldestEntry_spec {K V : Type} (l : List (K × V × Nat)) :
    ∀ (k0 : K) (t0 : Nat), oldestEntry l = some (k0, t0) →
      (∃ v, (k0, v, t0) ∈ l) ∧ ∀ e ∈ l, t0 ≤ e.2.2 := by
  induction l with
  | nil => intro k0 t0 h; simp [oldestEntry] at h
  | cons e rest ih =>
    obtain ⟨k, v, t⟩ := e
    intro k0 t0 h
    cases h2 : oldestEntry rest with
    | none =>
      have hrest : rest = [] := (oldestEntry_eq_none_iff rest).mp h2
      subst hrest
      simp only [oldestEntry, Option.some.injEq, Prod.mk.injEq] at h
      refine ⟨⟨v, ?_⟩, ?_⟩
      · simp [h.1, h.2]
      · intro e he
        simp only [List.mem_singleton] at he
        subst he
        simp [h.2]
    | some p =>
      obtain ⟨k2, t2⟩ := p
      simp only [oldestEntry, h2] at h
      obtain ⟨⟨v2, hv2⟩, hmin⟩ := ih k2 t2 h2
      by_cases hle : t ≤ t2
      · rw [if_pos hle] at h
        simp only [Option.some.injEq, Prod.mk.injEq] at h
        refine ⟨⟨v, by simp [h.1, h.2]⟩, ?_⟩
        intro e he
        rcases List.mem_cons.mp he with he | he
        · subst he; simp [h.2]
        · calc t0 = t := h.2.symm
            _ ≤ t2 := hle
            _ ≤ e.2.2 := by
              have := hmin e he
              omega
      · rw [if_neg hle] at h
        simp only [Option.some.injEq, Prod.mk.injEq] at h
        refine ⟨⟨v2, List.mem_cons_of_mem _ (by rw [← h.1, ← h.2]; exact hv2)⟩, ?_⟩
        intro e he
        rcases List.mem_cons.mp he with he | he
        · subst he
          exact le_of_lt (h.2 ▸ (not_le.mp hle))
        · exact h.2 ▸ hmin e he

theorem lookupAssoc_none_eraseAssoc [DecidableEq K] (l : List (K × V)) (k k0 : K)
    (h : lookupAssoc l k = none) : lookupAssoc (eraseAssoc l k0) k = none := by
  induction l with
  | nil => simp [eraseAssoc, lookupAssoc]
  | cons p rest ih =>
    obtain ⟨k2, v2⟩ := p
    by_cases h2 : k = k2
    · simp [lookupAssoc, h2] at h
    · simp only [lookupAssoc, if_neg h2] at h
      by_cases h0 : k0 = k2
      · simpa [eraseAssoc, h0] using h
      · simp [eraseAssoc, lookupAssoc, h0, h2, ih h]

theorem lookupAssoc_none_eraseAll [DecidableEq K] (ks : List K) (l : List (K × V)) (k : K)
    (h : lookupAssoc l k = none) : lookupAssoc (eraseAll l ks) k = none := by
  induction ks generalizing l with
  | nil => simpa [eraseAll] using h
  | cons k0 ks ih =>
    have : eraseAll l (k0 :: ks) = eraseAll (eraseAssoc l k0) ks := by
      simp [eraseAll]
    rw [this]
    exact ih _ (lookupAssoc_none_eraseAssoc l k k0 h)

theorem eraseAll_length [DecidableEq K] (ks : List K) (l : List (K × V))
    (hndl : (l.map Prod.fst).Nodup) (hndk : ks.Nodup)
    (hsub : ∀ k ∈ ks, k ∈ l.map Prod.fst) :
    (eraseAll l ks).length + ks.length = l.length := by
  induction ks generalizing l with
  | nil => simp [eraseAll]
  | cons k0 ks ih =>
    have hstep : eraseAll l (k0 :: ks) = eraseAll (eraseAssoc l k0) ks := by
      simp [eraseAll]
    rw [hstep]
    have hk0 : k0 ∈ l.map Prod.fst := hsub k0 (List.mem_cons_self _ _)
    have hnd2 := nodup_keys_eraseAssoc l k0 hndl
    have hndk2 := (List.nodup_cons.mp hndk).2
    have hnotin := (List.nodup_cons.mp hndk).1
    have hsub2 : ∀ k ∈ ks, k ∈ (eraseAssoc l k0).map Prod.fst := by
      intro k hk
      have hne : k ≠ k0 := fun he => hnotin (he ▸ hk)
      exact (mem_keys_eraseAssoc l k0 k hne).mpr (hsub k (List.mem_cons_of_mem _ hk))
    have h1 := ih (eraseAssoc l k0) hnd2 hndk2 hsub2
    have h2 := eraseAssoc_length_of_mem l k0 hk0
    simp only [List.length_cons]
    omega

theorem keysByTimestamp_perm {K V : Type} (l : List (K × V × Nat)) :
    (keysByTimestamp l).Perm (l.map Prod.fst) := by
  have h1 := List.perm_insertionSort (fun a b : K × Nat => a.2 ≤ b.2)
      (l.map (fun e => (e.1, e.2.2)))
  have h2 := h1.map Prod.fst
  have h3 : (l.map (fun e => (e.1, e.2.2))).map Prod.fst = l.map Prod.fst := by
    simp [List.map_map]
  rw [h3] at h2
  exact h2

/-- Claim C1 (amended): the two non-LRU cache classes evict differently.
`EmbeddingCache.put` at capacity evicts exactly one entry — one holding the
smallest stored timestamp — before storing the new entry at the current
timestamp, so the size is unchanged; `LLMResponseCacheSingleton.set` at
capacity instead deletes the oldest tenth of the entries
(`len(cache) // 10` of them, 100 at its capacity of 1000) before storing
the new entry. -/
theorem cacheEvictionAtCapacity {K V : Type} [DecidableEq K] :
    (∀ (c : EmbeddingCache K V) (key : K) (v : V) (now : Nat),
      c.maxEntries ≤ c.cache.length →
      c.cache ≠ [] →
      (c.cache.map Prod.fst).Nodup →
      lookupAssoc c.cache key = none →
      ∃ k0 t0, oldestEntry c.cache = some (k0, t0)
        ∧ (∀ e ∈ c.cache, t0 ≤ e.2.2)
        ∧ (c.put key v now).cache = setAssoc (eraseAssoc c.cache k0) key (v, now)
        ∧ (eraseAssoc c.cache k0).length + 1 = c.cache.length
        ∧ (c.put key v now).cache.length = c.cache.length
        ∧ lookupAssoc (c.put key v now).cache key = some (v, now))
    ∧ (∀ (c : LLMResponseCache K V) (key : K) (v : V) (now : Nat),
      c.maxEntries ≤ c.cache.length →
      (c.cache.map Prod.fst).Nodup →
      lookupAssoc c.cache key = none →
      (c.set key v now).cache.length = c.cache.length - c.cache.length / 10 + 1
        ∧ lookupAssoc (c.set key v now).cache key = some (v, now)) := by
  constructor
  · intro c key v now hcap hne hnd hfresh
    obtain ⟨p, hp⟩ := Option.ne_none_iff_exists'.mp
      (fun h => hne ((oldestEntry_eq_none_iff c.cache).mp h))
    obtain ⟨k0, t0⟩ := p
    obtain ⟨⟨v0, hv0⟩, hmin⟩ := oldestEntry_spec c.cache k0 t0 hp
    have hk0 : k0 ∈ c.cache.map Prod.fst := by
      exact List.mem_map.mpr ⟨(k0, v0, t0), hv0, rfl⟩
    have hput : (c.put key v now).cache = setAssoc (eraseAssoc c.cache k0) key (v, now) := by
      simp only [EmbeddingCache.put, if_pos hcap, hp]
    have hlen1 := eraseAssoc_length_of_mem c.cache k0 hk0
    have hfresh2 : lookupAssoc (eraseAssoc c.cache k0) key = none :=
      lookupAssoc_none_eraseAssoc c.cache key k0 hfresh
    have hlen2 : (c.put key v now).cache.length = c.cache.length := by
      rw [hput, lookupAssoc_setAssoc_fresh_length _ _ _ hfresh2]
      omega
    refine ⟨k0, t0, hp, hmin, hput, hlen1, hlen2, ?_⟩
    rw [hput, lookupAssoc_setAssoc]
    simp
  · intro c key v now hcap hnd hfresh
    have hperm := keysByTimestamp_perm c.cache
    have hndk : (keysByTimestamp c.cache).Nodup := hperm.nodup_iff.mpr hnd
    have hlenk : (keysByTimestamp c.cache).length = c.cache.length := by
      rw [hperm.length_eq, List.length_map]
    have hndk2 : ((keysByTimestamp c.cache).take ((keysByTimestamp c.cache).length / 10)).Nodup :=
      hndk.sublist (List.take_sublist _ _)
    have hsub : ∀ k ∈ (keysByTimestamp c.cache).take ((keysByTimestamp c.cache).length / 10),
        k ∈ c.cache.map Prod.fst := by
      intro k hk
      exact hperm.mem_iff.mp (List.mem_of_mem_take hk)
    have hlenT : ((keysByTimestamp c.cache).take
        ((keysByTimestamp c.cache).length / 10)).length = c.cache.length / 10 := by
      rw [List.length_take, hlenk]
      exact Nat.min_eq_left (Nat.div_le_self _ _)
    have hset : (c.set key v now).cache =
        setAssoc (eraseAll c.cache ((keysByTimestamp c.cache).take
          ((keysByTimestamp c.cache).length / 10))) key (v, now) := by
      simp only [LLMResponseCache.set, if_pos hcap]
    have hErLen := eraseAll_length ((keysByTimestamp c.cache).take
      ((keysByTimestamp c.cache).length / 10)) c.cache hnd hndk2 hsub
    have hfresh2 := lookupAssoc_none_eraseAll ((keysByTimestamp c.cache).take
      ((keysByTimestamp c.cache).length / 10)) c.cache key hfresh
    constructor
    · rw [hset, lookupAssoc_setAssoc_fresh_length _ _ _ hfresh2]
      rw [hlenT] at hErLen
      omega
    · rw [hset, lookupAssoc_setAssoc]
      simp

/-- Witness for the amended claim C1 at a concrete input: an embedding
cache with two entries and capacity 2, and an LLM cache with ten entries
and its eviction arithmetic. -/
theorem cacheEvictionAtCapacity_witness :
    (({ cache := [(1, 5, 10), (2, 6, 3)], ttlSeconds := 86400, maxEntries := 2,
        hits := 0, misses := 0 : EmbeddingCache Nat Nat }).put 3 7 50).cache.length = 2 := by
  have h := (cacheEvictionAtCapacity (K := Nat) (V := Nat)).1
    { cache := [(1, 5, 10), (2, 6, 3)], ttlSeconds := 86400, maxEntries := 2,
      hits := 0, misses := 0 } 3 7 50
    (by decide) (by decide) (by decide) (by decide)
  obtain ⟨k0, t0, _, _, _, _, hlen, _⟩ := h
  exact hlen

/-- An LLM response cache filled to its capacity of 1000 entries, with
ascending timestamps. -/
def llmFullCache : LLMResponseCache Nat Unit :=
  { cache := (List.range 1000).map (fun i => (i, (), i)), ttlSeconds := 3600,
    maxEntries := 1000, hits := 0, misses := 0 }

/-- Claim C1 (counterexample): a `set` on the LLM response cache singleton
at its capacity of 1000 leaves 901 entries, not 1000 — it evicts the 100
oldest-timestamped entries, not exactly one. -/
theorem llmSetAtCapacityEvictsHundred :
    llmFullCache.cache.length = 1000 ∧
    llmFullCache.maxEntries = 1000 ∧
    (llmFullCache.set 2000 () 5000).cache.length = 901 := by
  refine ⟨by simp [llmFullCache], rfl, ?_⟩
  set_option maxRecDepth 100000 in decide

/-- Claim C7: in both cache classes, a `get` on a key whose entry was
inserted more than TTL seconds ago returns a miss (`None`) and deletes
the expired entry, so a subsequent lookup no longer finds it. -/
theorem cacheGetExpiredEntryIsRemovedMiss {K V : Type} [DecidableEq K] :
    (∀ (c : EmbeddingCache K V) (key : K) (v : V) (ts now : Nat),
      (c.cache.map Prod.fst).Nodup →
      lookupAssoc c.cache key = some (v, ts) →
      ts + c.ttlSeconds < now →
      (c.get key now).1 = none ∧ lookupAssoc ((c.get key now).2).cache key = none)
    ∧ (∀ (c : LLMResponseCache K V) (key : K) (v : V) (ts now : Nat),
      (c.cache.map Prod.fst).Nodup →
      lookupAssoc c.cache key = some (v, ts) →
      ts + c.ttlSeconds < now →
      (c.get key now).1 = none ∧ lookupAssoc ((c.get key now).2).cache key = none) := by
  constructor
  · intro c key v ts now hnd hlook hexp
    have hcond : c.ttlSeconds < now - ts := by omega
    constructor
    · simp only [EmbeddingCache.get, hlook, if_pos hcond]
    · simp only [EmbeddingCache.get, hlook, if_pos hcond]
      exact lookupAssoc_eraseAssoc_self c.cache key hnd
  · intro c key v ts now hnd hlook hexp
    have hcond : c.ttlSeconds < now - ts := by omega
    constructor
    · simp only [LLMResponseCache.get, hlook, if_pos hcond]
    · simp only [LLMResponseCache.get, hlook, if_pos hcond]
      exact lookupAssoc_eraseAssoc_self c.cache key hnd

/-- A one-entry embedding cache whose entry was stored at time 100. -/
def embWitnessCache : EmbeddingCache Nat Nat :=
  { cache := [(1, 7, 100)], ttlSeconds := 10, maxEntries := 5, hits := 0, misses := 0 }

/-- A one-entry LLM response cache whose entry was stored at time 100. -/
def llmWitnessCache : LLMResponseCache Nat Nat :=
  { cache := [(1, 7, 100)], ttlSeconds := 10, maxEntries := 5, hits := 0, misses := 0 }

/-- Witness for claim C7 at a concrete input: an entry inserted at time
100 with TTL 10 is a miss at time 200 in both caches, and is gone. -/
theorem cacheGetExpiredEntryIsRemovedMiss_witness :
    ((embWitnessCache.get 1 200).1 = none
      ∧ lookupAssoc ((embWitnessCache.get 1 200).2).cache 1 = none)
    ∧ ((llmWitnessCache.get 1 200).1 = none
      ∧ lookupAssoc ((llmWitnessCache.get 1 200).2).cache 1 = none) :=
  ⟨cacheGetExpiredEntryIsRemovedMiss.1 embWitnessCache 1 7 100 200
      (by decide) (by decide) (by decide),
   cacheGetExpiredEntryIsRemovedMiss.2 llmWitnessCache 1 7 100 200
      (by decide) (by decide) (by decide)⟩

/-! ## GraphIndex (graph_index.py)

Weights are kept in tenths: `RELATIONSHIP_WEIGHTS` values (1.0 … 0.1)
become 10 … 1, and the type bonus `ENTITY_TYPE_PRIORITY.get(t, 1) / 10.0`
becomes the raw priority.  Raw nodes/edges/chunks carry the attribute
values produced by the GraphML `get_data` helper (already stripped of
whitespace and literal quotes), with the empty string standing for a
missing attribute, exactly as `get_data` returns. -/

/-- `RELATIONSHIP_WEIGHTS.get(rel_type, 0.1)`, in tenths. -/
def relationshipWeight (rt : String) : Nat :=
  if rt = "CONCERNE" then 10
  else if rt = "HAS_SOURCE" then 9
  else if rt = "SOURCED_BY" then 9
  else if rt = "CONTRIBUE_A" then 8
  else if rt = "EXPRIME" then 7
  else if rt = "PROPOSE" then 6
  else if rt = "FAIT_PARTIE_DE" then 5
  else if rt = "APPARTIENT_A" then 3
  else if rt = "RELATED_TO" then 1
  else 1

/-- `ENTITY_TYPE_PRIORITY.get(entity_type, 1)`; divided by 10.0 in the code
to give the bonus, which in tenths is the raw priority. -/
def entityTypePriority (t : String) : Nat :=
  if t = "COMMUNE" then 10
  else if t = "CONCEPT" then 8
  else if t = "THEME" then 7
  else if t = "CHUNK" then 6
  else if t = "ACTOR" then 5
  else if t = "ORGANIZATION" then 5
  else if t = "PERSON" then 3
  else if t = "LOCATION" then 2
  else if t = "UNKNOWN" then 1
  else 1

structure EntityMetadata where
  name : String
  entity_type : String
  description : String
  commune : String
  node_id : String
deriving DecidableEq

structure ChunkMetadata where
  chunk_id : String
  content : String
  tokens : Nat
  chunk_order_index : Nat
  full_doc_id : String
  commune : String
  contribution_number : Option Int
  contribution_type : Option String
  demographic : Option String
deriving DecidableEq

structure EdgeInfo where
  target : String
  rel_type : String
  weight : Nat
deriving DecidableEq

structure GraphIndex where
  adjacency : List (String × List EdgeInfo)
  entities : List (String × EntityMetadata)
  nameIndex : List (String × String)
  chunks : List (String × ChunkMetadata)
  entitySourceIds : List (String × List String)
  loadedCommunes : List String
  totalNodes : Nat
  totalEdges : Nat
  totalChunks : Nat

def GraphIndex.empty : GraphIndex :=
  { adjacency := [], entities := [], nameIndex := [], chunks := [],
    entitySourceIds := [], loadedCommunes := [], totalNodes := 0,
    totalEdges := 0, totalChunks := 0 }

/-- A `node` element of a parsed GraphML file: the stripped id and the
values the `get_data` helper yields for each attribute (empty string when
the attribute is absent). -/
structure RawNode where
  id : String
  entity_name : String
  entity_type : String
  description : String
  source_id : String

/-- An `edge` element of a parsed GraphML file: stripped endpoint ids and
the three attributes tried in order for the relationship type. -/
structure RawEdge where
  source : String
  target : String
  typeAttr : String
  relationship_type : String
  label : String

/-- A record of `kv_store_text_chunks.json`. -/
structure RawChunk where
  id : String
  content : String
  tokens : Nat
  chunk_order_index : Nat
  full_doc_id : String
  contribution_number : Option Int
  contribution_type : Option String
  demographic : Option String

/-- `get_data(edge,'type') or get_data(edge,'relationship_type') or
get_data(edge,'label') or 'RELATED_TO'`. -/
def RawEdge.relType (e : RawEdge) : String :=
  if e.typeAttr ≠ "" then e.typeAttr
  else if e.relationship_type ≠ "" then e.relationship_type
  else if e.label ≠ "" then e.label
  else "RELATED_TO"

/-- One iteration of the node-parsing loop of `_load_commune` (nodes with
an empty id are skipped; `entity_name` falls back to the node id,
`entity_type` to `UNKNOWN`; the description is truncated to 300
characters; `source_id` is split on `<SEP>`). -/
def processNode (communeId : String) (idx : GraphIndex) (n : RawNode) : GraphIndex :=
  if n.id = "" then idx
  else
    let entityName := if n.entity_name = "" then n.id else n.entity_name
    let entityType := if n.entity_type = "" then "UNKNOWN" else n.entity_type
    let md : EntityMetadata :=
      { name := entityName, entity_type := entityType,
        description := n.description.take 300, commune := communeId, node_id := n.id }
    let idx1 := { idx with
      entities := setAssoc idx.entities n.id md,
      nameIndex := setAssoc idx.nameIndex (entityName.toUpper.trim) n.id }
    let chunkIds := ((n.source_id.splitOn "<SEP>").map String.trim).filter (fun s => s ≠ "")
    if n.source_id ≠ "" ∧ chunkIds ≠ [] then
      { idx1 with entitySourceIds := setAssoc idx1.entitySourceIds n.id chunkIds }
    else idx1

/-- One iteration of the edge-parsing loop of `_load_commune`: edges with
an empty endpoint are skipped; an edge is materialized bidirectionally as
two adjacency entries with the same relationship type and weight and
swapped endpoints. -/
def processEdge (idx : GraphIndex) (e : RawEdge) : GraphIndex :=
  if e.source = "" ∨ e.target = "" then idx
  else
    let rt := e.relType
    let w := relationshipWeight rt
    let adj1 := appendAssoc idx.adjacency e.source ⟨e.target, rt, w⟩
    let adj2 := appendAssoc adj1 e.target ⟨e.source, rt, w⟩
    { idx with adjacency := adj2 }

def countValidNodes (nodes : List RawNode) : Nat :=
  (nodes.filter (fun n => n.id ≠ "")).length

def countValidEdges (edges : List RawEdge) : Nat :=
  (edges.filter (fun e => ¬(e.source = "" ∨ e.target = ""))).length

/-- One iteration of the chunk-storing loop of `_load_commune_chunks`: the
chunk metadata is stored and the chunk becomes a pseudo-entity of type
`CHUNK`. -/
def processChunk (communeId : String) (idx : GraphIndex) (c : RawChunk) : GraphIndex :=
  let cmd : ChunkMetadata :=
    { chunk_id := c.id, content := c.content, tokens := c.tokens,
      chunk_order_index := c.chunk_order_index, full_doc_id := c.full_doc_id,
      commune := communeId, contribution_number := c.contribution_number,
      contribution_type := c.contribution_type, demographic := c.demographic }
  let emd : EntityMetadata :=
    { name := "CONTRIBUTION_" ++ toString c.chunk_order_index, entity_type := "CHUNK",
      description := c.content.take 200, commune := communeId, node_id := c.id }
  { idx with chunks := setAssoc idx.chunks c.id cmd,
             entities := setAssoc idx.entities c.id emd }

/-- The HAS_SOURCE/SOURCED_BY edge-creation loop of `_load_commune_chunks`:
for every parsed `source_id` list of an entity of this commune, each chunk
id that is a loaded chunk yields one provenance edge in each direction. -/
def addProvenanceEdges (communeId : String) (idx : GraphIndex) : GraphIndex :=
  let hasSourceWeight := relationshipWeight "HAS_SOURCE"
  idx.entitySourceIds.foldl (fun acc p =>
    match lookupAssoc acc.entities p.1 with
    | some md =>
      if md.commune = communeId then
        p.2.foldl (fun acc2 chunkId =>
          if (lookupAssoc acc2.chunks chunkId).isSome then
            let adj1 := appendAssoc acc2.adjacency p.1 ⟨chunkId, "HAS_SOURCE", hasSourceWeight⟩
            let adj2 := appendAssoc adj1 chunkId ⟨p.1, "SOURCED_BY", hasSourceWeight⟩
            { acc2 with adjacency := adj2 }
          else acc2) acc
      else acc
    | none => acc) idx

/-- `_load_commune` for one commune whose files parsed successfully:
nodes, then edges, then counters, then `_load_commune_chunks`. -/
def loadCommune (idx : GraphIndex) (communeId : String)
    (nodes : List RawNode) (edges : List RawEdge) (chunkData : List RawChunk) :
    GraphIndex :=
  let idx1 := nodes.foldl (processNode communeId) idx
  let idx2 := edges.foldl processEdge idx1
  let idx3 := { idx2 with
    totalNodes := idx2.totalNodes + countValidNodes nodes,
    totalEdges := idx2.totalEdges + countValidEdges edges,
    loadedCommunes := idx2.loadedCommunes ++ [communeId] }
  let idx4 := chunkData.foldl (processChunk communeId) idx3
  let idx5 := addProvenanceEdges communeId idx4
  { idx5 with totalChunks := idx5.totalChunks + chunkData.length }

/-- `initialize` over a list of parsed communes. -/
def loadAll (communes : List (String × List RawNode × List RawEdge × List RawChunk)) :
    GraphIndex :=
  communes.foldl (fun idx c => loadCommune idx c.1 c.2.1 c.2.2.1 c.2.2.2) GraphIndex.empty

/-- `get_neighbors`: `self._adjacency.get(entity_id, [])`; total, never an
error. -/
def GraphIndex.getNeighbors (idx : GraphIndex) (entityId : String) : List EdgeInfo :=
  (lookupAssoc idx.adjacency entityId).getD []

/-- `get_entity`: `self._entities.get(entity_id)`; total, never an error. -/
def GraphIndex.getEntity (idx : GraphIndex) (entityId : String) : Option EntityMetadata :=
  lookupAssoc idx.entities entityId

/-- `has_entity`: membership in `_entities` or in the keys of `_adjacency`
(the defaultdict holds a key exactly when an append created it). -/
def GraphIndex.hasEntity (idx : GraphIndex) (entityId : String) : Bool :=
  (lookupAssoc idx.entities entityId).isSome || (lookupAssoc idx.adjacency entityId).isSome

/-- Claim C8: for an id absent from both maps, `get_neighbors` returns the
empty list and `get_entity` returns `None`; both are total functions of the
model, so neither can raise. -/
theorem unknownIdLookupsAreEmpty (idx : GraphIndex) (entityId : String)
    (hent : lookupAssoc idx.entities entityId = none)
    (hadj : lookupAssoc idx.adjacency entityId = none) :
    idx.getNeighbors entityId = [] ∧ idx.getEntity entityId = none := by
  constructor
  · simp [GraphIndex.getNeighbors, hadj]
  · simp [GraphIndex.getEntity, hent]

/-- Witness for claim C8: the unknown id `"GHOST"` on an index loaded with
one node and one edge. -/
theorem unknownIdLookupsAreEmpty_witness :
    (loadAll [("m", [⟨"A", "Alpha", "CONCEPT", "", ""⟩],
        [⟨"A", "B", "CONCERNE", "", ""⟩], [])]).getNeighbors "GHOST" = []
    ∧ (loadAll [("m", [⟨"A", "Alpha", "CONCEPT", "", ""⟩],
        [⟨"A", "B", "CONCERNE", "", ""⟩], [])]).getEntity "GHOST" = none :=
  unknownIdLookupsAreEmpty _ "GHOST" (by decide) (by decide)

/-- Total number of adjacency entries over all keys. -/
def totalAdjEntries (idx : GraphIndex) : Nat :=
  (idx.adjacency.map (fun p => p.2.length)).sum

theorem adjCount_appendAssoc [DecidableEq K] (l : List (K × List V)) (k : K) (v : V) :
    ((appendAssoc l k v).map (fun p => p.2.length)).sum
      = (l.map (fun p => p.2.length)).sum + 1 := by
  induction l with
  | nil => simp [appendAssoc]
  | cons p rest ih =>
    obtain ⟨k2, lst⟩ := p
    by_cases h : k = k2
    · simp [appendAssoc, h]
      omega
    · simp [appendAssoc, h, ih]
      omega

theorem lookupAssoc_appendAssoc_getD [DecidableEq K] (l : List (K × List V)) (k k2 : K) (v : V) :
    (lookupAssoc (appendAssoc l k v) k2).getD []
      = if k2 = k then (lookupAssoc l k2).getD [] ++ [v]
        else (lookupAssoc l k2).getD [] := by
  induction l with
  | nil =>
    by_cases h : k2 = k <;> simp [appendAssoc, lookupAssoc, h]
  | cons p rest ih =>
    obtain ⟨k3, lst⟩ := p
    by_cases h3 : k = k3
    · subst h3
      by_cases h2 : k2 = k <;> simp [appendAssoc, lookupAssoc, h2]
    · by_cases h2 : k2 = k3
      · subst h2
        have : ¬ k2 = k := fun h => h3 h.symm
        simp [appendAssoc, lookupAssoc, h3, this]
      · simp [appendAssoc, lookupAssoc, h3, h2, ih]

/-- A projection that every step of a fold leaves unchanged is unchanged
by the whole fold. -/
theorem foldl_preserves {α β γ : Type} (f : α → β → α) (P : α → γ)
    (h : ∀ a b, P (f a b) = P a) : ∀ (l : List β) (a : α), P (l.foldl f a) = P a := by
  intro l
  induction l with
  | nil => intro a; rfl
  | cons b rest ih => intro a; rw [List.foldl_cons, ih, h]

theorem processNode_totalNodes (communeId : String) (idx : GraphIndex) (n : RawNode) :
    (processNode communeId idx n).totalNodes = idx.totalNodes := by
  simp only [processNode]
  split
  · rfl
  · split <;> rfl

theorem processEdge_totalNodes (idx : GraphIndex) (e : RawEdge) :
    (processEdge idx e).totalNodes = idx.totalNodes := by
  simp only [processEdge]
  split <;> rfl

theorem processChunk_totalNodes (communeId : String) (idx : GraphIndex) (c : RawChunk) :
    (processChunk communeId idx c).totalNodes = idx.totalNodes := by
  rfl

theorem addProvenanceEdges_totalNodes (communeId : String) (idx : GraphIndex) :
    (addProvenanceEdges communeId idx).totalNodes = idx.totalNodes := by
  simp only [addProvenanceEdges]
  refine foldl_preserves _ GraphIndex.totalNodes ?_ idx.entitySourceIds idx
  intro a p
  cases hl : lookupAssoc a.entities p.1 with
  | none => simp [hl]
  | some md =>
    by_cases hc : md.commune = communeId
    · simp only [hl, hc, if_pos rfl]
      refine foldl_preserves _ GraphIndex.totalNodes ?_ p.2 a
      intro a2 chunkId
      split <;> rfl
    · simp [hl, hc]

theorem loadCommune_totalNodes (idx : GraphIndex) (communeId : String)
    (nodes : List RawNode) (edges : List RawEdge) (chunkData : List RawChunk) :
    (loadCommune idx communeId nodes edges chunkData).totalNodes
      = idx.totalNodes + countValidNodes nodes := by
  simp only [loadCommune]
  rw [addProvenanceEdges_totalNodes]
  rw [foldl_preserves (processChunk communeId) GraphIndex.totalNodes
    (fun a b => processChunk_totalNodes communeId a b) chunkData]
  simp only
  rw [foldl_preserves processEdge GraphIndex.totalNodes processEdge_totalNodes edges]
  rw [foldl_preserves (processNode communeId) GraphIndex.totalNodes
    (fun a b => processNode_totalNodes communeId a b) nodes]

theorem countValidNodes_of_all_valid (nodes : List RawNode)
    (h : ∀ n ∈ nodes, n.id ≠ "") : countValidNodes nodes = nodes.length := by
  unfold countValidNodes
  rw [List.filter_eq_self.mpr]
  intro n hn
  simpa using h n hn

/-- Claim C3: (i) loading any set of collections whose nodes all carry an
id leaves `_total_nodes` equal to the total number of nodes; (ii) each
directed edge with both endpoints produces exactly two adjacency entries,
one under each endpoint, with identical relationship type and weight and
swapped endpoints, all other adjacency lists untouched; (iii) the edge
phase grows the total adjacency entry count by exactly twice the number of
valid edges. -/
theorem loadMaterializesEdgesBidirectionally :
    (∀ (communes : List (String × List RawNode × List RawEdge × List RawChunk)),
      (∀ c ∈ communes, ∀ n ∈ c.2.1, n.id ≠ "") →
      (loadAll communes).totalNodes = (communes.map (fun c => c.2.1.length)).sum)
    ∧ (∀ (idx : GraphIndex) (e : RawEdge), e.source ≠ "" → e.target ≠ "" →
        e.source ≠ e.target →
        (processEdge idx e).getNeighbors e.source
          = idx.getNeighbors e.source
            ++ [⟨e.target, e.relType, relationshipWeight e.relType⟩]
        ∧ (processEdge idx e).getNeighbors e.target
          = idx.getNeighbors e.target
            ++ [⟨e.source, e.relType, relationshipWeight e.relType⟩]
        ∧ ∀ x, x ≠ e.source → x ≠ e.target →
            (processEdge idx e).getNeighbors x = idx.getNeighbors x)
    ∧ (∀ (edges : List RawEdge) (idx : GraphIndex),
        totalAdjEntries (edges.foldl processEdge idx)
          = totalAdjEntries idx + 2 * countValidEdges edges) := by
  refine ⟨?_, ?_, ?_⟩
  · intro communes hvalid
    have key : ∀ (cs : List (String × List RawNode × List RawEdge × List RawChunk))
        (idx : GraphIndex), (∀ c ∈ cs, ∀ n ∈ c.2.1, n.id ≠ "") →
        (cs.foldl (fun idx c => loadCommune idx c.1 c.2.1 c.2.2.1 c.2.2.2) idx).totalNodes
          = idx.totalNodes + (cs.map (fun c => c.2.1.length)).sum := by
      intro cs
      induction cs with
      | nil => intro idx _; simp
      | cons c rest ih =>
        intro idx hv
        rw [List.foldl_cons, ih _ (fun c2 hc2 => hv c2 (List.mem_cons_of_mem _ hc2))]
        rw [loadCommune_totalNodes,
          countValidNodes_of_all_valid c.2.1 (hv c (List.mem_cons_self _ _))]
        simp
        omega
    have h := key communes GraphIndex.empty hvalid
    simpa [loadAll, GraphIndex.empty] using h
  · intro idx e hs ht hne
    have hcond : ¬ (e.source = "" ∨ e.target = "") := by
      intro h
      rcases h with h | h
      · exact hs h
      · exact ht h
    refine ⟨?_, ?_, ?_⟩
    · simp only [processEdge, if_neg hcond, GraphIndex.getNeighbors]
      rw [lookupAssoc_appendAssoc_getD, if_neg hne,
        lookupAssoc_appendAssoc_getD, if_pos rfl]
    · simp only [processEdge, if_neg hcond, GraphIndex.getNeighbors]
      rw [lookupAssoc_appendAssoc_getD, if_pos rfl,
        lookupAssoc_appendAssoc_getD, if_neg (fun h => hne h.symm)]
    · intro x hx1 hx2
      simp only [processEdge, if_neg hcond, GraphIndex.getNeighbors]
      rw [lookupAssoc_appendAssoc_getD, if_neg hx2,
        lookupAssoc_appendAssoc_getD, if_neg hx1]
  · intro edges
    induction edges with
    | nil => intro idx; simp [countValidEdges]
    | cons e rest ih =>
      intro idx
      rw [List.foldl_cons, ih]
      unfold countValidEdges
      by_cases hcond : e.source = "" ∨ e.target = ""
      · have : processEdge idx e = idx := by simp [processEdge, hcond]
        rw [this]
        simp only [List.filter_cons]
        have : ¬ (¬ (e.source = "" ∨ e.target = "")) := fun h => h hcond
        simp [hcond]
      · have hstep : totalAdjEntries (processEdge idx e) = totalAdjEntries idx + 2 := by
          simp only [processEdge, if_neg hcond, totalAdjEntries]
          rw [adjCount_appendAssoc, adjCount_appendAssoc]
        rw [hstep]
        simp only [List.filter_cons]
        simp [hcond]
        omega

/-- Witness for claim C3 at a concrete input: two communes, three nodes
and one edge in total. -/
theorem loadMaterializesEdgesBidirectionally_witness :
    (loadAll [("m1", [⟨"A", "", "", "", ""⟩, ⟨"B", "", "", "", ""⟩],
        [⟨"A", "B", "CONCERNE", "", ""⟩], []),
      ("m2", [⟨"C", "", "", "", ""⟩], [], [])]).totalNodes = 3
    ∧ (processEdge GraphIndex.empty ⟨"A", "B", "CONCERNE", "", ""⟩).getNeighbors "A"
        = [⟨"B", "CONCERNE", 10⟩]
    ∧ totalAdjEntries ([(⟨"A", "B", "CONCERNE", "", ""⟩ : RawEdge)].foldl
        processEdge GraphIndex.empty) = 2 := by
  refine ⟨?_, ?_, ?_⟩
  · have h := loadMaterializesEdgesBidirectionally.1
      [("m1", [⟨"A", "", "", "", ""⟩, ⟨"B", "", "", "", ""⟩],
        [⟨"A", "B", "CONCERNE", "", ""⟩], []),
       ("m2", [⟨"C", "", "", "", ""⟩], [], [])] (by decide)
    rw [h]
    rfl
  · have h := (loadMaterializesEdgesBidirectionally.2.1 GraphIndex.empty
      ⟨"A", "B", "CONCERNE", "", ""⟩ (by decide) (by decide) (by decide)).1
    rw [h]
    rfl
  · have h := loadMaterializesEdgesBidirectionally.2.2
      [(⟨"A", "B", "CONCERNE", "", ""⟩ : RawEdge)] GraphIndex.empty
    rw [h]
    rfl

/-! ## Traversal engine: `expand_weighted`

The Python priority queue holds tuples
`(negative_weight, depth, counter, entity_id, path_from)`; `heapq` pops
the lexicographically smallest tuple, and counters are unique, so the
payload is never compared.  We keep the weight un-negated and encode the
tuple order in `entryLE`; the heap is a plain list and `popMinE` removes
the leftmost least entry. -/

/-- The `path_from` payload `{'source': ..., 'rel_type': ..., 'weight': ...}`. -/
structure CameFrom where
  source : String
  rel_type : String
  weight : Nat
deriving DecidableEq

structure HeapEntry where
  weight : Nat
  depth : Nat
  counter : Nat
  eid : String
  cameFrom : Option CameFrom
deriving DecidableEq

/-- The order `(-weight, depth, counter) ≤ (-weight', depth', counter')`. -/
def entryLE (a b : HeapEntry) : Bool :=
  if a.weight ≠ b.weight then b.weight < a.weight
  else if a.depth ≠ b.depth then a.depth < b.depth
  else a.counter ≤ b.counter

/-- Remove the leftmost least entry, as `heapq.heappop` does (with unique
counters the least entry is unique). -/
def popMinE : List HeapEntry → Option (HeapEntry × List HeapEntry)
  | [] => none
  | e :: rest =>
    match popMinE rest with
    | none => some (e, [])
    | some (m, rest2) => if entryLE e m then some (e, rest) else some (m, e :: rest2)

/-- An entry of the Python `paths` output list. -/
structure PathStep where
  source : String
  target : String
  ptype : String
  hop : Nat
  weight : Nat
deriving DecidableEq

/-- The neighbor-expansion loop body: skips targets already visited,
chunk-typed targets when `include_chunks` is false, and targets outside a
non-empty commune filter (an empty set is falsy in Python, hence no
filtering); otherwise pushes the neighbor at
`weight + edge.weight + type_bonus` with the next counter. -/
def pushNeighbors (idx : GraphIndex) (mFilter : Option (List String))
    (includeChunks : Bool) (visited : List (String × Nat)) (eid : String)
    (w d : Nat) : Nat → List EdgeInfo → List HeapEntry × Nat
  | c, [] => ([], c)
  | c, edge :: rest =>
    if (lookupAssoc visited edge.target).isSome then
      pushNeighbors idx mFilter includeChunks visited eid w d c rest
    else
      let tmd := idx.getEntity edge.target
      let chunkSkip : Bool := !includeChunks &&
        (match tmd with | some m => m.entity_type == "CHUNK" | none => false)
      let communeSkip : Bool :=
        match mFilter with
        | none => false
        | some fl => !fl.isEmpty &&
            (match tmd with | some m => !fl.contains m.commune | none => false)
      if chunkSkip || communeSkip then
        pushNeighbors idx mFilter includeChunks visited eid w d c rest
      else
        let bonus := match tmd with
          | none => 0
          | some m => entityTypePriority m.entity_type
        let combined := w + edge.weight + bonus
        let out := pushNeighbors idx mFilter includeChunks visited eid w d (c + 1) rest
        (⟨combined, d + 1, c, edge.target, some ⟨eid, edge.rel_type, edge.weight⟩⟩ :: out.1,
          out.2)

/-- The `while heap and len(visited) < max_results` loop, with enough fuel
to drain every entry that can ever be pushed.  On pop: an entry whose id is
already visited is skipped; otherwise the id is settled at the popped
weight, the incoming path edge recorded, and, when `depth < max_hops`,
its neighbors are pushed. -/
def expandLoop (idx : GraphIndex) (maxHops maxResults : Nat)
    (mFilter : Option (List String)) (includeChunks : Bool) :
    Nat → List HeapEntry → List (String × Nat) → List PathStep → Nat →
    List (String × Nat) × List PathStep
  | 0, _, visited, paths, _ => (visited, paths)
  | fuel + 1, heap, visited, paths, c =>
    if visited.length < maxResults then
      match popMinE heap with
      | none => (visited, paths)
      | some (e, rest) =>
        if (lookupAssoc visited e.eid).isSome then
          expandLoop idx maxHops maxResults mFilter includeChunks fuel rest visited paths c
        else
          let visited2 := visited ++ [(e.eid, e.weight)]
          let paths2 :=
            match e.cameFrom with
            | none => paths
            | some cf => paths ++ [⟨cf.source, e.eid, cf.rel_type, e.depth, cf.weight⟩]
          if maxHops ≤ e.depth then
            expandLoop idx maxHops maxResults mFilter includeChunks fuel rest visited2 paths2 c
          else
            let out := pushNeighbors idx mFilter includeChunks visited2 e.eid e.weight
              e.depth c (idx.getNeighbors e.eid)
            expandLoop idx maxHops maxResults mFilter includeChunks fuel
              (rest ++ out.1) visited2 paths2 out.2
    else (visited, paths)

/-- Seed initialization: every seed recognized by `has_entity` is pushed at
weight 0, depth 0, with successive counters and no incoming edge. -/
def seedHeap (idx : GraphIndex) : Nat → List String → List HeapEntry × Nat
  | c, [] => ([], c)
  | c, s :: rest =>
    if idx.hasEntity s then
      let out := seedHeap idx (c + 1) rest
      (⟨0, 0, c, s, none⟩ :: out.1, out.2)
    else seedHeap idx c rest

/-- A returned entity dict (id, metadata fields, traversal weight). -/
structure ResultEntity where
  eid : String
  name : String
  etype : String
  description : String
  commune : String
  traversal_weight : Nat
deriving DecidableEq

/-- The final `for entity_id in visited` loop: ids settled in insertion
order, kept only when entity metadata exists. -/
def buildEntities (idx : GraphIndex) (visited : List (String × Nat)) : List ResultEntity :=
  visited.filterMap (fun p =>
    (idx.getEntity p.1).map (fun m =>
      ⟨p.1, m.name, m.entity_type, m.description, m.commune, p.2⟩))

/-- `entities.sort(key=..., reverse=True)`: a stable descending sort by
traversal weight. -/
def sortEntities (l : List ResultEntity) : List ResultEntity :=
  List.insertionSort (fun a b => b.traversal_weight ≤ a.traversal_weight) l

/-- `expand_weighted`, parameterized additionally by the starting value of
the tie-breaking counter (the code always starts it at 0; claim C5 shows
the result does not depend on it).  The fuel bounds the number of loop
iterations: each iteration pops one entry, and at most
`len(seeds) + max_results * total-adjacency` entries are ever pushed. -/
def GraphIndex.expandWeightedFrom (idx : GraphIndex) (seeds : List String)
    (maxHops maxResults : Nat) (mFilter : Option (List String))
    (includeChunks : Bool) (c0 : Nat) : List ResultEntity × List PathStep :=
  let init := seedHeap idx c0 seeds
  let fuel := seeds.length + totalAdjEntries idx * maxResults + 1
  let out := expandLoop idx maxHops maxResults mFilter includeChunks fuel init.1 [] [] init.2
  (sortEntities (buildEntities idx out.1), out.2)

/-- `expand_weighted` as the code runs it: counter starts at 0. -/
def GraphIndex.expandWeighted (idx : GraphIndex) (seeds : List String)
    (maxHops maxResults : Nat) (mFilter : Option (List String))
    (includeChunks : Bool) : List ResultEntity × List PathStep :=
  idx.expandWeightedFrom seeds maxHops maxResults mFilter includeChunks 0

/-- The four-node index used as counterexample input for claim C2:
edges S–A and S–B of type RELATED_TO (weight 0.1), B–C and C–A of type
CONCERNE (weight 1.0); A and C carry the high-bonus type COMMUNE, B the
low-bonus type UNKNOWN. -/
def cexIndex : GraphIndex :=
  loadAll [("m",
    [⟨"S", "S", "CONCEPT", "", ""⟩, ⟨"A", "A", "COMMUNE", "", ""⟩,
     ⟨"B", "B", "UNKNOWN", "", ""⟩, ⟨"C", "C", "COMMUNE", "", ""⟩],
    [⟨"S", "A", "RELATED_TO", "", ""⟩, ⟨"S", "B", "RELATED_TO", "", ""⟩,
     ⟨"B", "C", "CONCERNE", "", ""⟩, ⟨"C", "A", "CONCERNE", "", ""⟩],
    [])]

/-- `p` lists adjacency edges forming a walk that starts at `cur`. -/
def validPath (idx : GraphIndex) : String → List EdgeInfo → Bool
  | _, [] => true
  | cur, e :: rest => (idx.getNeighbors cur).contains e && validPath idx e.target rest

def pathEndpoint : String → List EdgeInfo → String
  | cur, [] => cur
  | _, e :: rest => pathEndpoint e.target rest

/-- Cumulative traversal weight along a walk, accumulated exactly as the
expansion does: each hop adds `edge.weight + type_bonus(target)`. -/
def pathCumWeight (idx : GraphIndex) : Nat → List EdgeInfo → Nat
  | w, [] => w
  | w, e :: rest =>
    let bonus := match idx.getEntity e.target with
      | none => 0
      | some m => entityTypePriority m.entity_type
    pathCumWeight idx (w + e.weight + bonus) rest

/-- Claim C2 (counterexample): on `cexIndex`, `expand_weighted(["S"],
max_hops=3, max_results=200)` settles A at traversal weight 1.1 (11
tenths), yet the three-hop walk S → B → C → A — within `max_hops` and with
no `max_results` truncation, since only four entities are settled —
accumulates weight 4.2 (42 tenths): the settled weight of a first-settled
id is not maximal among paths from the seeds within `max_hops`. -/
theorem expandWeightedSettledWeightNotMaximal :
    ((cexIndex.expandWeighted ["S"] 3 200 none true).1.filter
        (fun r => r.eid == "A")).map (fun r => r.traversal_weight) = [11]
    ∧ validPath cexIndex "S"
        [⟨"B", "RELATED_TO", 1⟩, ⟨"C", "CONCERNE", 10⟩, ⟨"A", "CONCERNE", 10⟩] = true
    ∧ pathEndpoint "S"
        [⟨"B", "RELATED_TO", 1⟩, ⟨"C", "CONCERNE", 10⟩, ⟨"A", "CONCERNE", 10⟩] = "A"
    ∧ pathCumWeight cexIndex 0
        [⟨"B", "RELATED_TO", 1⟩, ⟨"C", "CONCERNE", 10⟩, ⟨"A", "CONCERNE", 10⟩] = 42
    ∧ (cexIndex.expandWeighted ["S"] 3 200 none true).1.length = 4
    ∧ 11 < 42 := by
  refine ⟨by decide, by decide, by decide, by decide, by decide, by decide⟩

/-- Once an id is recorded in `visited`, every later state of the loop
still maps it to the same weight (entries are only ever appended, and only
for ids not yet bound). -/
theorem expandLoop_lookup_mono (idx : GraphIndex) (mh mr : Nat)
    (mf : Option (List String)) (inc : Bool) :
    ∀ (fuel : Nat) (heap : List HeapEntry) (v : List (String × Nat))
      (p : List PathStep) (c : Nat) (x : String) (w : Nat),
      lookupAssoc v x = some w →
      lookupAssoc (expandLoop idx mh mr mf inc fuel heap v p c).1 x = some w := by
  intro fuel
  induction fuel with
  | zero =>
    intro heap v p c x w h
    simpa [expandLoop] using h
  | succ n ih =>
    intro heap v p c x w h
    simp only [expandLoop]
    by_cases hlen : v.length < mr
    · rw [if_pos hlen]
      cases hpop : popMinE heap with
      | none => simpa using h
      | some pr =>
        obtain ⟨e, rest⟩ := pr
        by_cases hvis : (lookupAssoc v e.eid).isSome
        · simp only [hvis, if_true]
          exact ih rest v p c x w h
        · simp only [hvis, if_false]
          have h2 : lookupAssoc (v ++ [(e.eid, e.weight)]) x = some w :=
            lookupAssoc_append_left v _ x w h
          by_cases hd : mh ≤ e.depth
          · rw [if_pos hd]
            exact ih _ _ _ _ x w h2
          · rw [if_neg hd]
            exact ih _ _ _ _ x w h2
    · rw [if_neg hlen]
      exact h

/-- Claim C2 (amended): (i) a popped entry whose id is already visited is
skipped — the loop continues on the remaining heap with visited, paths and
counter unchanged; (ii) first-settled wins in the sense that a recorded
weight is final: once an id is in `visited` with a weight, the loop output
still maps it to that weight.  (Finality does not make the settled weight
maximal among paths within `max_hops`; see the counterexample.) -/
theorem expandWeightedSkipAndSettledWeightFinal :
    (∀ (idx : GraphIndex) (mh mr : Nat) (mf : Option (List String)) (inc : Bool)
      (fuel : Nat) (heap rest : List HeapEntry) (v : List (String × Nat))
      (p : List PathStep) (c : Nat) (e : HeapEntry),
      popMinE heap = some (e, rest) →
      (lookupAssoc v e.eid).isSome →
      v.length < mr →
      expandLoop idx mh mr mf inc (fuel + 1) heap v p c
        = expandLoop idx mh mr mf inc fuel rest v p c)
    ∧ (∀ (idx : GraphIndex) (mh mr : Nat) (mf : Option (List String)) (inc : Bool)
      (fuel : Nat) (heap : List HeapEntry) (v : List (String × Nat))
      (p : List PathStep) (c : Nat) (x : String) (w : Nat),
      lookupAssoc v x = some w →
      lookupAssoc (expandLoop idx mh mr mf inc fuel heap v p c).1 x = some w) := by
  constructor
  · intro idx mh mr mf inc fuel heap rest v p c e hpop hvis hlen
    simp only [expandLoop, if_pos hlen, hpop, hvis, if_true]
  · intro idx mh mr mf inc fuel heap v p c x w h
    exact expandLoop_lookup_mono idx mh mr mf inc fuel heap v p c x w h

/-- Witness for the amended claim C2 at concrete inputs: a heap whose only
entry has an already-visited id is skipped, and the visited weight 5 of
`"X"` survives to the loop output. -/
theorem expandWeightedSkipAndSettledWeightFinal_witness :
    (expandLoop GraphIndex.empty 2 3 none true 1 [⟨0, 0, 0, "X", none⟩]
        [("X", 5)] [] 7
      = expandLoop GraphIndex.empty 2 3 none true 0 [] [("X", 5)] [] 7)
    ∧ lookupAssoc (expandLoop GraphIndex.empty 2 3 none true 1
        [⟨0, 0, 0, "X", none⟩] [("X", 5)] [] 7).1 "X" = some 5 :=
  ⟨expandWeightedSkipAndSettledWeightFinal.1 GraphIndex.empty 2 3 none true 0
      [⟨0, 0, 0, "X", none⟩] [] [("X", 5)] [] 7 ⟨0, 0, 0, "X", none⟩
      (by decide) (by decide) (by decide),
   expandWeightedSkipAndSettledWeightFinal.2 GraphIndex.empty 2 3 none true 1
      [⟨0, 0, 0, "X", none⟩] [("X", 5)] [] 7 "X" 5 (by decide)⟩

/-- Claim C10: the `include_chunks` flag and the commune filter are tested
only when pushing neighbors, never on seeds: for every filter value and
every `include_chunks` value — in particular a `some` filter excluding the
seed's commune, and `include_chunks = false` with a chunk-typed seed — a
seed with entity metadata is settled at weight 0 and returned. -/
theorem seedsBypassNeighborFilters (idx : GraphIndex) (s : String) (m : EntityMetadata)
    (mh mr : Nat) (mf : Option (List String)) (inc : Bool)
    (hmeta : idx.getEntity s = some m) (hr : 0 < mr) :
    ∃ re ∈ (idx.expandWeighted [s] mh mr mf inc).1,
      re.eid = s ∧ re.traversal_weight = 0 := by
  have hhas : idx.hasEntity s = true := by
    simp only [GraphIndex.hasEntity, GraphIndex.getEntity] at hmeta ⊢
    rw [hmeta]
    simp
  have hseed : seedHeap idx 0 [s] = ([⟨0, 0, 0, s, none⟩], 1) := by
    simp [seedHeap, hhas]
  have hbase : lookupAssoc ([(s, 0)] : List (String × Nat)) s = some 0 := by
    simp [lookupAssoc]
  have h1 : expandLoop idx mh mr mf inc (1 + totalAdjEntries idx * mr + 1)
      [⟨0, 0, 0, s, none⟩] [] [] 1
      = if 0 < mr then
          (if mh ≤ 0 then
            expandLoop idx mh mr mf inc (1 + totalAdjEntries idx * mr) [] [(s, 0)] [] 1
          else
            expandLoop idx mh mr mf inc (1 + totalAdjEntries idx * mr)
              ([] ++ (pushNeighbors idx mf inc [(s, 0)] s 0 0 1 (idx.getNeighbors s)).1)
              [(s, 0)] []
              (pushNeighbors idx mf inc [(s, 0)] s 0 0 1 (idx.getNeighbors s)).2)
        else ([], []) := rfl
  have hfinal : lookupAssoc
      (expandLoop idx mh mr mf inc (1 + totalAdjEntries idx * mr + 1)
        [⟨0, 0, 0, s, none⟩] [] [] 1).1 s = some 0 := by
    rw [h1, if_pos hr]
    by_cases hd : mh ≤ 0
    · rw [if_pos hd]
      exact expandLoop_lookup_mono idx mh mr mf inc _ _ _ _ _ s 0 hbase
    · rw [if_neg hd]
      exact expandLoop_lookup_mono idx mh mr mf inc _ _ _ _ _ s 0 hbase
  have hmem : (s, 0) ∈ (expandLoop idx mh mr mf inc (1 + totalAdjEntries idx * mr + 1)
      [⟨0, 0, 0, s, none⟩] [] [] 1).1 := lookupAssoc_mem _ _ _ hfinal
  have hbuilt : (⟨s, m.name, m.entity_type, m.description, m.commune, 0⟩ : ResultEntity)
      ∈ buildEntities idx (expandLoop idx mh mr mf inc (1 + totalAdjEntries idx * mr + 1)
        [⟨0, 0, 0, s, none⟩] [] [] 1).1 := by
    refine List.mem_filterMap.mpr ⟨(s, 0), hmem, ?_⟩
    simp only [GraphIndex.getEntity] at hmeta
    simp [GraphIndex.getEntity, hmeta]
  refine ⟨⟨s, m.name, m.entity_type, m.description, m.commune, 0⟩, ?_, rfl, rfl⟩
  show _ ∈ (idx.expandWeightedFrom [s] mh mr mf inc 0).1
  simp only [GraphIndex.expandWeightedFrom, hseed, List.length_singleton, sortEntities]
  exact (List.perm_insertionSort _ _).mem_iff.mpr hbuilt

/-- An index whose only node is the chunk-typed entity `"X"` of commune
`"m"` (the state `loadAll [("m", [⟨"X", "X", "CHUNK", "", ""⟩], [], [])]`
reaches). -/
def chunkSeedIndex : GraphIndex :=
  { adjacency := [], entities := [("X", ⟨"X", "CHUNK", "", "m", "X"⟩)],
    nameIndex := [("X", "X")], chunks := [], entitySourceIds := [],
    loadedCommunes := ["m"], totalNodes := 1, totalEdges := 0, totalChunks := 0 }

/-- Witness for claim C10: a chunk-typed seed, with `include_chunks` false
and a commune filter excluding its commune, is still settled and returned
at weight 0. -/
theorem seedsBypassNeighborFilters_witness :
    ∃ re ∈ (chunkSeedIndex.expandWeighted ["X"] 2 10 (some ["other"]) false).1,
      re.eid = "X" ∧ re.traversal_weight = 0 :=
  seedsBypassNeighborFilters chunkSeedIndex "X" ⟨"X", "CHUNK", "", "m", "X"⟩
    2 10 (some ["other"]) false (by decide) (by decide)

/-- Shift the tie-breaking counter of a heap entry. -/
def shiftE (d : Nat) (e : HeapEntry) : HeapEntry :=
  { e with counter := e.counter + d }

theorem entryLE_shift (d : Nat) (a b : HeapEntry) :
    entryLE (shiftE d a) (shiftE d b) = entryLE a b := by
  simp [entryLE, shiftE, Nat.add_le_add_iff_right]

theorem popMinE_shift (d : Nat) :
    ∀ heap : List HeapEntry,
      popMinE (heap.map (shiftE d))
        = (popMinE heap).map (fun pr => (shiftE d pr.1, pr.2.map (shiftE d))) := by
  intro heap
  induction heap with
  | nil => simp [popMinE]
  | cons e rest ih =>
    simp only [List.map_cons, popMinE, ih]
    cases hpop : popMinE rest with
    | none => simp [Option.map]
    | some pr =>
      obtain ⟨m, rest2⟩ := pr
      simp only [Option.map]
      rw [entryLE_shift]
      by_cases hle : entryLE e m = true
      · rw [if_pos hle, if_pos hle]
      · rw [if_neg hle, if_neg hle]
        simp [Option.map]

theorem pushNeighbors_shift (idx : GraphIndex) (mFilter : Option (List String))
    (includeChunks : Bool) (visited : List (String × Nat)) (eid : String)
    (w dep d : Nat) :
    ∀ (edges : List EdgeInfo) (c : Nat),
      pushNeighbors idx mFilter includeChunks visited eid w dep (c + d) edges
        = ((pushNeighbors idx mFilter includeChunks visited eid w dep c edges).1.map (shiftE d),
           (pushNeighbors idx mFilter includeChunks visited eid w dep c edges).2 + d) := by
  intro edges
  induction edges with
  | nil => intro c; simp [pushNeighbors]
  | cons edge rest ih =>
    intro c
    simp only [pushNeighbors]
    split
    · exact ih c
    · split
      · exact ih c
      · have hc : c + d + 1 = (c + 1) + d := by omega
        rw [hc, ih (c + 1)]
        simp [shiftE]

theorem seedHeap_shift (idx : GraphIndex) (d : Nat) :
    ∀ (seeds : List String) (c : Nat),
      seedHeap idx (c + d) seeds
        = ((seedHeap idx c seeds).1.map (shiftE d), (seedHeap idx c seeds).2 + d) := by
  intro seeds
  induction seeds with
  | nil => intro c; simp [seedHeap]
  | cons s rest ih =>
    intro c
    simp only [seedHeap]
    by_cases h : idx.hasEntity s = true
    · simp only [h, if_true]
      have hc : c + d + 1 = (c + 1) + d := by omega
      rw [hc, ih (c + 1)]
      simp [shiftE]
    · simp only [h, if_false]
      exact ih c

theorem expandLoop_shift (idx : GraphIndex) (mh mr : Nat)
    (mf : Option (List String)) (inc : Bool) (d : Nat) :
    ∀ (fuel : Nat) (heap : List HeapEntry) (v : List (String × Nat))
      (p : List PathStep) (c : Nat),
      expandLoop idx mh mr mf inc fuel (heap.map (shiftE d)) v p (c + d)
        = expandLoop idx mh mr mf inc fuel heap v p c := by
  intro fuel
  induction fuel with
  | zero => intro heap v p c; simp [expandLoop]
  | succ n ih =>
    intro heap v p c
    simp only [expandLoop]
    by_cases hlen : v.length < mr
    · rw [if_pos hlen, if_pos hlen, popMinE_shift]
      cases hpop : popMinE heap with
      | none => simp [Option.map]
      | some pr =>
        obtain ⟨e, rest⟩ := pr
        simp only [Option.map]
        have heid : (shiftE d e).eid = e.eid := rfl
        have hw : (shiftE d e).weight = e.weight := rfl
        have hdep : (shiftE d e).depth = e.depth := rfl
        have hcf : (shiftE d e).cameFrom = e.cameFrom := rfl
        rw [heid, hw, hdep, hcf]
        by_cases hvis : (lookupAssoc v e.eid).isSome
        · simp only [hvis, if_true]
          exact ih rest v p c
        · simp only [hvis, if_false]
          by_cases hd2 : mh ≤ e.depth
          · rw [if_pos hd2, if_pos hd2]
            exact ih rest _ _ c
          · rw [if_neg hd2, if_neg hd2]
            rw [pushNeighbors_shift]
            have happ : (rest.map (shiftE d))
                ++ ((pushNeighbors idx mf inc (v ++ [(e.eid, e.weight)]) e.eid e.weight
                  e.depth c (idx.getNeighbors e.eid)).1.map (shiftE d))
                = (rest ++ (pushNeighbors idx mf inc (v ++ [(e.eid, e.weight)]) e.eid
                  e.weight e.depth c (idx.getNeighbors e.eid)).1).map (shiftE d) := by
              rw [List.map_append]
            rw [happ]
            exact ih _ _ _ _
    · rw [if_neg hlen, if_neg hlen]

/-- Claim C5: `expand_weighted` is deterministic for a fixed index, seeds
and parameters: the run does not depend on the starting value of the heap
tie-breaking counter (the only per-call session artifact), so any two
calls return the same entity list and in particular the same entity set. -/
theorem expandWeightedDeterministicEntitySet (idx : GraphIndex) (seeds : List String)
    (mh mr : Nat) (mf : Option (List String)) (inc : Bool) (d : Nat) :
    idx.expandWeightedFrom seeds mh mr mf inc d
      = idx.expandWeighted seeds mh mr mf inc
    ∧ ((idx.expandWeightedFrom seeds mh mr mf inc d).1.map (fun r => r.eid)).toFinset
      = ((idx.expandWeighted seeds mh mr mf inc).1.map (fun r => r.eid)).toFinset := by
  have hmain : idx.expandWeightedFrom seeds mh mr mf inc d
      = idx.expandWeighted seeds mh mr mf inc := by
    simp only [GraphIndex.expandWeighted, GraphIndex.expandWeightedFrom]
    have hd : d = 0 + d := by omega
    rw [hd, seedHeap_shift]
    simp only [Nat.zero_add]
    rw [expandLoop_shift]
  exact ⟨hmain, by rw [hmain]⟩

theorem popMinE_eq_none_iff (heap : List HeapEntry) :
    popMinE heap = none ↔ heap = [] := by
  cases heap with
  | nil => simp [popMinE]
  | cons e rest =>
    simp only [popMinE]
    cases popMinE rest with
    | none => simp
    | some pr =>
      obtain ⟨m, rest2⟩ := pr
      by_cases h : entryLE e m = true <;> simp [h]

theorem popMinE_perm (heap : List HeapEntry) :
    ∀ (e : HeapEntry) (rest : List HeapEntry),
      popMinE heap = some (e, rest) → heap.Perm (e :: rest) := by
  induction heap with
  | nil => intro e rest h; simp [popMinE] at h
  | cons a rest0 ih =>
    intro e rest h
    cases hpop : popMinE rest0 with
    | none =>
      have h0 : rest0 = [] := (popMinE_eq_none_iff rest0).mp hpop
      subst h0
      simp only [popMinE, Option.some.injEq, Prod.mk.injEq] at h
      rw [← h.1, ← h.2]
    | some pr =>
      obtain ⟨m, rest2⟩ := pr
      simp only [popMinE, hpop] at h
      by_cases hle : entryLE a m = true
      · rw [if_pos hle] at h
        simp only [Option.some.injEq, Prod.mk.injEq] at h
        rw [← h.1, ← h.2]
      · rw [if_neg hle] at h
        simp only [Option.some.injEq, Prod.mk.injEq] at h
        have hperm0 : rest0.Perm (m :: rest2) := ih m rest2 hpop
        have h1 : (a :: rest0).Perm (a :: m :: rest2) := hperm0.cons a
        have h2 : (a :: m :: rest2).Perm (m :: a :: rest2) := List.Perm.swap m a rest2
        rw [← h.1, ← h.2]
        exact h1.trans h2

theorem seedHeap_spec (idx : GraphIndex) :
    ∀ (seeds : List String) (c : Nat),
      (seedHeap idx c seeds).1.map (fun e => e.eid)
          = seeds.filter (fun s => idx.hasEntity s)
      ∧ ∀ e ∈ (seedHeap idx c seeds).1,
          e.depth = 0 ∧ e.weight = 0 ∧ e.cameFrom = none := by
  intro seeds
  induction seeds with
  | nil => intro c; simp [seedHeap]
  | cons s rest ih =>
    intro c
    simp only [seedHeap, List.filter_cons]
    by_cases h : idx.hasEntity s = true
    · simp only [h, if_true]
      refine ⟨?_, ?_⟩
      · simp [(ih (c + 1)).1]
      · intro e he
        rcases List.mem_cons.mp he with he | he
        · subst he; exact ⟨rfl, rfl, rfl⟩
        · exact (ih (c + 1)).2 e he
    · simp only [h, if_false]
      exact ih c

theorem card_erase_add_one_le_card_insert {α : Type} [DecidableEq α]
    (S : Finset α) (a : α) : (S.erase a).card + 1 ≤ (insert a S).card := by
  by_cases h : a ∈ S
  · rw [Finset.card_erase_of_mem h, Finset.insert_eq_self.mpr h]
    have h1 : 1 ≤ S.card := Finset.card_pos.mpr ⟨a, h⟩
    omega
  · rw [Finset.erase_eq_of_not_mem h, Finset.card_insert_of_not_mem h]

/-- With every heap entry at depth ≥ `max_hops`, weight 0 and no incoming
edge (the `max_hops = 0` seed situation), the loop settles exactly the
distinct heap ids that fit under `max_results`, never pushes, and records
no paths. -/
theorem expandLoop_shallow (idx : GraphIndex) (mh mr : Nat)
    (mf : Option (List String)) (inc : Bool) :
    ∀ (fuel : Nat) (heap : List HeapEntry) (v : List (String × Nat))
      (p : List PathStep) (c : Nat),
      (∀ e ∈ heap, mh ≤ e.depth ∧ e.weight = 0 ∧ e.cameFrom = none) →
      heap.length ≤ fuel →
      ((heap.map (fun e => e.eid)).toFinset \ (v.map Prod.fst).toFinset).card
          + v.length ≤ mr →
      ((expandLoop idx mh mr mf inc fuel heap v p c).1.map Prod.fst).toFinset
          = (v.map Prod.fst).toFinset ∪ (heap.map (fun e => e.eid)).toFinset
        ∧ (expandLoop idx mh mr mf inc fuel heap v p c).2 = p
        ∧ ∀ q ∈ (expandLoop idx mh mr mf inc fuel heap v p c).1, q ∈ v ∨ q.2 = 0 := by
  intro fuel
  induction fuel with
  | zero =>
    intro heap v p c hent hlen hcard
    have h0 : heap = [] := List.length_eq_zero.mp (Nat.le_zero.mp hlen)
    subst h0
    exact ⟨by simp [expandLoop], rfl, fun q hq => Or.inl hq⟩
  | succ n ih =>
    intro heap v p c hent hlen hcard
    simp only [expandLoop]
    by_cases hvlen : v.length < mr
    · rw [if_pos hvlen]
      cases hpop : popMinE heap with
      | none =>
        have h0 : heap = [] := (popMinE_eq_none_iff heap).mp hpop
        subst h0
        exact ⟨by simp, rfl, fun q hq => Or.inl hq⟩
      | some pr =>
        obtain ⟨e, rest⟩ := pr
        have hperm : heap.Perm (e :: rest) := popMinE_perm heap e rest hpop
        have hids : (heap.map (fun e2 => e2.eid)).toFinset
            = insert e.eid (rest.map (fun e2 => e2.eid)).toFinset := by
          rw [List.toFinset_eq_of_perm _ _ (hperm.map (fun e2 => e2.eid))]
          simp
        have hlen2 : rest.length ≤ n := by
          have hl := hperm.length_eq
          simp only [List.length_cons] at hl
          omega
        have hentrest : ∀ e2 ∈ rest, mh ≤ e2.depth ∧ e2.weight = 0 ∧ e2.cameFrom = none :=
          fun e2 he2 => hent e2 (hperm.mem_iff.mpr (List.mem_cons_of_mem _ he2))
        have hente := hent e (hperm.mem_iff.mpr (List.mem_cons_self _ _))
        by_cases hvis : (lookupAssoc v e.eid).isSome
        · simp only [hvis, if_true]
          have hmemv : e.eid ∈ v.map Prod.fst :=
            (lookupAssoc_isSome_iff_mem_keys v e.eid).mp hvis
          have hrsub : (rest.map (fun e2 => e2.eid)).toFinset
                \ (v.map Prod.fst).toFinset
              ⊆ (heap.map (fun e2 => e2.eid)).toFinset \ (v.map Prod.fst).toFinset := by
            rw [hids]
            exact Finset.sdiff_subset_sdiff (Finset.subset_insert _ _) (Finset.Subset.refl _)
          have hcard2 : ((rest.map (fun e2 => e2.eid)).toFinset
              \ (v.map Prod.fst).toFinset).card + v.length ≤ mr := by
            have hle := Finset.card_le_card hrsub
            omega
          obtain ⟨ha, hb, hc2⟩ := ih rest v p c hentrest hlen2 hcard2
          refine ⟨?_, hb, hc2⟩
          rw [ha, hids, Finset.union_insert, Finset.insert_eq_self.mpr
            (Finset.mem_union_left _ (List.mem_toFinset.mpr hmemv))]
        · simp only [hente.2.1, hente.2.2]
          rw [if_neg hvis, if_pos hente.1]
          have hnotin : e.eid ∉ (v.map Prod.fst).toFinset := by
            intro hmem
            exact hvis ((lookupAssoc_isSome_iff_mem_keys v e.eid).mpr
              (List.mem_toFinset.mp hmem))
          have hv2keys : ((v ++ [(e.eid, 0)]).map Prod.fst).toFinset
              = insert e.eid (v.map Prod.fst).toFinset := by
            rw [List.map_append, List.toFinset_append, Finset.insert_eq, Finset.union_comm]
            simp
          have hheap_sdiff : (heap.map (fun e2 => e2.eid)).toFinset
                \ (v.map Prod.fst).toFinset
              = insert e.eid ((rest.map (fun e2 => e2.eid)).toFinset
                \ (v.map Prod.fst).toFinset) := by
            rw [hids, Finset.insert_sdiff_of_not_mem _ hnotin]
          have hrest_sdiff : (rest.map (fun e2 => e2.eid)).toFinset
                \ ((v ++ [(e.eid, 0)]).map Prod.fst).toFinset
              = ((rest.map (fun e2 => e2.eid)).toFinset
                \ (v.map Prod.fst).toFinset).erase e.eid := by
            rw [hv2keys, Finset.sdiff_insert]
          have hcardStep := card_erase_add_one_le_card_insert
            ((rest.map (fun e2 => e2.eid)).toFinset \ (v.map Prod.fst).toFinset) e.eid
          have hcard2 : ((rest.map (fun e2 => e2.eid)).toFinset
              \ (((v ++ [(e.eid, 0)]).map Prod.fst).toFinset)).card
              + (v ++ [(e.eid, 0)]).length ≤ mr := by
            rw [hrest_sdiff]
            rw [hheap_sdiff] at hcard
            simp only [List.length_append, List.length_singleton]
            omega
          obtain ⟨ha, hb, hc2⟩ := ih rest (v ++ [(e.eid, 0)]) p c hentrest hlen2 hcard2
          refine ⟨?_, hb, ?_⟩
          · rw [ha, hv2keys, hids, Finset.insert_union, Finset.union_insert]
          · intro q hq
            rcases hc2 q hq with hq2 | hq2
            · rcases List.mem_append.mp hq2 with hq3 | hq3
              · exact Or.inl hq3
              · right
                simp only [List.mem_singleton] at hq3
                rw [hq3]
            · exact Or.inr hq2
    · rw [if_neg hvlen]
      have hz : ((heap.map (fun e => e.eid)).toFinset
          \ (v.map Prod.fst).toFinset).card = 0 := by omega
      have hsub := Finset.sdiff_eq_empty_iff_subset.mp (Finset.card_eq_zero.mp hz)
      exact ⟨(Finset.union_eq_left.mpr hsub).symm, rfl, fun q hq => Or.inl hq⟩

theorem buildEntities_mem (idx : GraphIndex) (v : List (String × Nat)) (re : ResultEntity)
    (h : re ∈ buildEntities idx v) : (re.eid, re.traversal_weight) ∈ v := by
  obtain ⟨q, hmem, heq⟩ := List.mem_filterMap.mp h
  obtain ⟨k, w⟩ := q
  cases hme : idx.getEntity k with
  | none => rw [hme] at heq; simp at heq
  | some m =>
    rw [hme, Option.map_some'] at heq
    simp only [Option.some.injEq] at heq
    rw [← heq]
    exact hmem

theorem buildEntities_keys (idx : GraphIndex) (v : List (String × Nat))
    (h : ∀ k ∈ v.map Prod.fst, (idx.getEntity k).isSome) :
    (buildEntities idx v).map (fun r => r.eid) = v.map Prod.fst := by
  induction v with
  | nil => rfl
  | cons q rest ih =>
    obtain ⟨k, w⟩ := q
    have hk := h k (by simp)
    obtain ⟨m, hm⟩ := Option.isSome_iff_exists.mp hk
    simp only [buildEntities, List.filterMap_cons, hm, Option.map_some', List.map_cons]
    have ih2 := ih (fun k2 hk2 => h k2 (List.mem_cons_of_mem _ hk2))
    simp only [buildEntities] at ih2
    rw [ih2]

/-- Claim C4 (amended): with `max_hops = 0`, and provided the distinct
seeds recognized by `has_entity` number at most `max_results` and each of
them has entity metadata, `expand_weighted` returns exactly the known
seeds, each at traversal weight 0, with an empty path list.  (Without
those provisos the call truncates at `max_results`, and seeds known only
through the adjacency map are settled but dropped from the entity list.) -/
theorem expandWeightedZeroHopsReturnsKnownSeeds (idx : GraphIndex) (seeds : List String)
    (mr : Nat) (mf : Option (List String)) (inc : Bool)
    (hcard : ((seeds.filter (fun s => idx.hasEntity s)).dedup).length ≤ mr)
    (hmeta : ∀ s ∈ seeds.filter (fun s => idx.hasEntity s), (idx.getEntity s).isSome) :
    ((idx.expandWeighted seeds 0 mr mf inc).1.map (fun r => r.eid)).toFinset
        = (seeds.filter (fun s => idx.hasEntity s)).toFinset
      ∧ (∀ re ∈ (idx.expandWeighted seeds 0 mr mf inc).1, re.traversal_weight = 0)
      ∧ (idx.expandWeighted seeds 0 mr mf inc).2 = [] := by
  obtain ⟨hmap, hprops⟩ := seedHeap_spec idx seeds 0
  have hent : ∀ e ∈ (seedHeap idx 0 seeds).1,
      0 ≤ e.depth ∧ e.weight = 0 ∧ e.cameFrom = none := by
    intro e he
    obtain ⟨h1, h2, h3⟩ := hprops e he
    exact ⟨Nat.zero_le _, h2, h3⟩
  have hHlen : (seedHeap idx 0 seeds).1.length
      ≤ seeds.length + totalAdjEntries idx * mr + 1 := by
    have h1 : (seedHeap idx 0 seeds).1.length
        = ((seedHeap idx 0 seeds).1.map (fun e => e.eid)).length :=
      (List.length_map _ _).symm
    rw [h1, hmap]
    have h2 := List.length_filter_le (fun s => idx.hasEntity s) seeds
    omega
  have hHcard : (((seedHeap idx 0 seeds).1.map (fun e => e.eid)).toFinset
      \ (([] : List (String × Nat)).map Prod.fst).toFinset).card
      + ([] : List (String × Nat)).length ≤ mr := by
    rw [hmap]
    simp only [List.map_nil, List.toFinset_nil, Finset.sdiff_empty, List.length_nil,
      Nat.add_zero]
    rw [List.card_toFinset]
    exact hcard
  obtain ⟨hA, hB, hC⟩ := expandLoop_shallow idx 0 mr mf inc
    (seeds.length + totalAdjEntries idx * mr + 1) (seedHeap idx 0 seeds).1 [] []
    (seedHeap idx 0 seeds).2 hent hHlen hHcard
  rw [hmap] at hA
  simp only [List.map_nil, List.toFinset_nil, Finset.empty_union] at hA
  have hksome : ∀ k ∈ (expandLoop idx 0 mr mf inc
      (seeds.length + totalAdjEntries idx * mr + 1) (seedHeap idx 0 seeds).1 [] []
      (seedHeap idx 0 seeds).2).1.map Prod.fst, (idx.getEntity k).isSome := by
    intro k hk
    have hk2 : k ∈ (seeds.filter (fun s => idx.hasEntity s)).toFinset := by
      rw [← hA]
      exact List.mem_toFinset.mpr hk
    exact hmeta k (List.mem_toFinset.mp hk2)
  have hperm := List.perm_insertionSort
    (fun a b : ResultEntity => b.traversal_weight ≤ a.traversal_weight)
    (buildEntities idx (expandLoop idx 0 mr mf inc
      (seeds.length + totalAdjEntries idx * mr + 1) (seedHeap idx 0 seeds).1 [] []
      (seedHeap idx 0 seeds).2).1)
  simp only [GraphIndex.expandWeighted, GraphIndex.expandWeightedFrom, sortEntities]
  refine ⟨?_, ?_, hB⟩
  · rw [List.toFinset_eq_of_perm _ _ (hperm.map (fun r => r.eid))]
    rw [buildEntities_keys _ _ hksome]
    exact hA
  · intro re hre
    have hre2 := hperm.mem_iff.mp hre
    have hmem := buildEntities_mem _ _ re hre2
    rcases hC _ hmem with h | h
    · exact absurd h (List.not_mem_nil _)
    · exact h

/-- An index holding exactly the two entities `"A"` and `"B"`. -/
def twoSeedIndex : GraphIndex :=
  loadAll [("m", [⟨"A", "A", "CONCEPT", "", ""⟩, ⟨"B", "B", "CONCEPT", "", ""⟩], [], [])]

/-- Claim C4 (counterexample): with `max_hops = 0` and `max_results = 1`,
`expand_weighted(["A", "B"])` returns only `A` even though `B` is a known
seed — the claim fails without a bound relating the seed count to
`max_results`. -/
theorem expandWeightedZeroHopsTruncatesAtMaxResults :
    twoSeedIndex.hasEntity "B" = true
    ∧ (twoSeedIndex.expandWeighted ["A", "B"] 0 1 none true).1.map (fun r => r.eid) = ["A"]
    ∧ (twoSeedIndex.expandWeighted ["A", "B"] 0 1 none true).2 = [] := by
  refine ⟨by decide, by decide, by decide⟩

/-- Witness for the amended claim C4: with `max_results = 2` the same call
returns exactly the known seeds `{A, B}` at weight 0 with no paths. -/
theorem expandWeightedZeroHopsReturnsKnownSeeds_witness :
    (((twoSeedIndex.expandWeighted ["A", "B"] 0 2 none true).1.map (fun r => r.eid)).toFinset
        = (["A", "B"].filter (fun s => twoSeedIndex.hasEntity s)).toFinset)
    ∧ (∀ re ∈ (twoSeedIndex.expandWeighted ["A", "B"] 0 2 none true).1,
        re.traversal_weight = 0)
    ∧ (twoSeedIndex.expandWeighted ["A", "B"] 0 2 none true).2 = [] :=
  expandWeightedZeroHopsReturnsKnownSeeds twoSeedIndex ["A", "B"] 2 none true
    (by decide) (by decide)

/-! ## CommunityCache (server.py)

`_refresh_cache` loads community reports, skips reports that are missing,
falsy, or rated below 4.0, stores the rest, and fills an inverted keyword
index; `search` tokenizes the query the same way, sums per-community
scores over matched keywords, sorts descending and selects results.
Tokenization models `re.findall(r'\b\w{3,}\b', text)` on lowered text:
maximal runs of word characters of length ≥ 3 (ASCII approximation of
`\w`).  Ratings are rationals (Python floats compared against 4.0). -/

def isWordChar (c : Char) : Bool := c.isAlphanum || c == '_'

/-- Python `str.lower()`, character-wise (extensionally `String.toLower`,
spelled out over the character list so that concrete instances evaluate). -/
def lowerStr (s : String) : String := ⟨s.toList.map Char.toLower⟩

/-- Maximal word-character runs of a character list (the accumulator holds
the current run, reversed). -/
def wordRunsAux : List Char → List Char → List (List Char)
  | [], acc => if acc.isEmpty then [] else [acc.reverse]
  | c :: rest, acc =>
    if isWordChar c then wordRunsAux rest (c :: acc)
    else if acc.isEmpty then wordRunsAux rest []
    else acc.reverse :: wordRunsAux rest []

/-- `re.findall(r'\b\w{3,}\b', s)`: maximal word-character runs of length
at least 3. -/
def findWords3 (s : String) : List String :=
  ((wordRunsAux s.toList []).filter (fun r => 3 ≤ r.length)).map List.asString

/-- The fixed French stop-word set of `server.py`. -/
def stopWords : List String :=
  ["le", "la", "les", "de", "du", "des", "un", "une", "et", "ou",
   "que", "qui", "dans", "pour", "sur", "avec", "par", "est", "sont",
   "ce", "cette", "ces", "au", "aux", "en", "il", "elle", "nous", "vous"]

/-- Python substring membership `needle in hay`. -/
def substrB (needle hay : String) : Bool :=
  (List.range (hay.toList.length + 1)).any
    (fun i => needle.toList.isPrefixOf (hay.toList.drop i))

/-- `set(re.findall(..., text.lower())) - stop_words`, as a duplicate-free
list. -/
def extractKeywords (text : String) : List String :=
  ((findWords3 (lowerStr text)).dedup).filter (fun w => ¬ w ∈ stopWords)

/-- The per-keyword score of `_refresh_cache`: 3 for a title substring
match plus 1 for a summary substring match. -/
def keywordScore (title summary keyword : String) : Nat :=
  (if substrB keyword (lowerStr title) then 3 else 0) +
  (if substrB keyword (lowerStr summary) then 1 else 0)

structure ReportJson where
  title : String
  summary : String
  rating : ℚ

/-- One value of a `kv_store_community_reports.json` mapping;
`report = none` models a missing or empty (falsy) `report_json`. -/
structure CommunityData where
  report : Option ReportJson
  nodes : List String
  chunkIds : List String

structure StoredCommunity where
  communeId : String
  communityId : String
  title : String
  summary : String
  rating : ℚ
  nodes : List String
  chunkIds : List String
deriving DecidableEq

structure CommunityCacheState where
  communities : List (String × List (String × StoredCommunity))
  keywordIndex : List (String × List (String × String × Nat))

/-- The inner keyword loop body of `_refresh_cache`: a keyword whose
total score is positive appends `(commune_id, comm_id, score)` to the
inverted index. -/
def indexCommunityKeyword (title summary communeId communityId : String)
    (ki : List (String × List (String × String × Nat))) (kw : String) :
    List (String × List (String × String × Nat)) :=
  let score := keywordScore title summary kw
  if 0 < score then appendAssoc ki kw (communeId, communityId, score) else ki

/-- One iteration of the community loop of `_refresh_cache`. -/
def processCommunity (communeId : String) (st : CommunityCacheState)
    (comm : String × CommunityData) : CommunityCacheState :=
  match comm.2.report with
  | none => st
  | some rep =>
    if rep.rating < 4 then st
    else
      let sc : StoredCommunity :=
        { communeId := communeId, communityId := comm.1, title := rep.title,
          summary := rep.summary, rating := rep.rating, nodes := comm.2.nodes,
          chunkIds := comm.2.chunkIds }
      let inner := (lookupAssoc st.communities communeId).getD []
      let comms1 := setAssoc st.communities communeId (setAssoc inner comm.1 sc)
      let st1 := { st with communities := comms1 }
      let kws := extractKeywords (rep.title ++ " " ++ rep.summary)
      let ki1 := kws.foldl (indexCommunityKeyword rep.title rep.summary communeId comm.1)
        st1.keywordIndex
      { st1 with keywordIndex := ki1 }

/-- `_refresh_cache` over parsed per-commune report files (the maps are
cleared first; each commune key is created empty, then its communities are
filtered and indexed). -/
def refreshCache (input : List (String × List (String × CommunityData))) :
    CommunityCacheState :=
  input.foldl (fun st c =>
    let st1 := { st with communities := setAssoc st.communities c.1 [] }
    c.2.foldl (processCommunity c.1) st1)
  { communities := [], keywordIndex := [] }

/-- `scores[(commune, comm)] += base_score`, a defaultdict(float) update. -/
def addScore (sc : List ((String × String) × Nat)) (key : String × String) (v : Nat) :
    List ((String × String) × Nat) :=
  match sc with
  | [] => [(key, v)]
  | (k2, v2) :: rest => if key = k2 then (k2, v2 + v) :: rest else (k2, v2) :: addScore rest key v

/-- Score aggregation of `search`: for each query keyword, add each index
entry score under its `(commune, community)` key. -/
def accumScores (st : CommunityCacheState) (qws : List String) :
    List ((String × String) × Nat) :=
  qws.foldl (fun sc kw =>
    ((lookupAssoc st.keywordIndex kw).getD []).foldl (fun sc2 e =>
      addScore sc2 (e.1, e.2.1) e.2.2) sc) []

structure SearchResult where
  community : StoredCommunity
  score : Nat
deriving DecidableEq

/-- The selection loop of `search`: stop at `max_results`, skip matches
from communes already seen once `max_communes` distinct communes are
represented, and keep only matches whose community is stored. -/
def selectResults (st : CommunityCacheState) (maxResults maxCommunes : Nat) :
    List ((String × String) × Nat) → List String → List SearchResult → List SearchResult
  | [], _, acc => acc
  | (key, score) :: rest, seen, acc =>
    if maxResults ≤ acc.length then acc
    else if key.1 ∈ seen ∧ maxCommunes ≤ seen.length then
      selectResults st maxResults maxCommunes rest seen acc
    else
      match (lookupAssoc st.communities key.1).bind (fun inner => lookupAssoc inner key.2) with
      | none => selectResults st maxResults maxCommunes rest seen acc
      | some c =>
        selectResults st maxResults maxCommunes rest
          (if key.1 ∈ seen then seen else seen ++ [key.1]) (acc ++ [⟨c, score⟩])

/-- `sorted(scores.items(), key=lambda x: x[1], reverse=True)`: stable
descending sort of the aggregated matches. -/
def sortMatches (l : List ((String × String) × Nat)) : List ((String × String) × Nat) :=
  List.insertionSort (fun a b => b.2 ≤ a.2) l

/-- `CommunityCache.search`. -/
def searchCommunities (st : CommunityCacheState) (query : String)
    (maxResults maxCommunes : Nat) : List SearchResult :=
  let qws := extractKeywords query
  if qws.isEmpty then []
  else selectResults st maxResults maxCommunes (sortMatches (accumScores st qws)) [] []

/-- `self._communities.get(commune_id, {}).get(comm_id)`. -/
def lookupStored (st : CommunityCacheState) (communeId communityId : String) :
    Option StoredCommunity :=
  (lookupAssoc st.communities communeId).bind (fun inner => lookupAssoc inner communityId)

/-- The rating-floor invariant: every stored community is rated ≥ 4. -/
def ratingFloor (st : CommunityCacheState) : Prop :=
  ∀ communeId communityId sc, lookupStored st communeId communityId = some sc → 4 ≤ sc.rating

theorem foldl_invariant {α β : Type} (f : α → β → α) (P : α → Prop)
    (h : ∀ a b, P a → P (f a b)) : ∀ (l : List β) (a : α), P a → P (l.foldl f a) := by
  intro l
  induction l with
  | nil => intro a ha; exact ha
  | cons b rest ih => intro a ha; rw [List.foldl_cons]; exact ih (f a b) (h a b ha)

theorem processCommunity_ratingFloor (communeId : String) (st : CommunityCacheState)
    (comm : String × CommunityData) (h : ratingFloor st) :
    ratingFloor (processCommunity communeId st comm) := by
  obtain ⟨cid, cd⟩ := comm
  cases hrep : cd.report with
  | none => simpa [processCommunity, hrep] using h
  | some rep =>
    by_cases hr : rep.rating < 4
    · simpa [processCommunity, hrep, hr] using h
    · intro m2 c2 sc hl
      simp only [processCommunity, hrep] at hl
      rw [if_neg hr] at hl
      simp only [lookupStored] at hl
      by_cases hm : m2 = communeId
      · subst hm
        rw [lookupAssoc_setAssoc, if_pos rfl] at hl
        simp only [Option.bind] at hl
        rw [lookupAssoc_setAssoc] at hl
        by_cases hc : c2 = cid
        · rw [if_pos hc] at hl
          simp only [Option.some.injEq] at hl
          rw [← hl]
          exact le_of_not_lt hr
        · rw [if_neg hc] at hl
          cases hinner : lookupAssoc st.communities m2 with
          | none => rw [hinner] at hl; simp [lookupAssoc] at hl
          | some inner =>
            rw [hinner] at hl
            simp only [Option.getD_some] at hl
            exact h m2 c2 sc (by simp [lookupStored, hinner, hl])
      · rw [lookupAssoc_setAssoc, if_neg hm] at hl
        exact h m2 c2 sc hl

theorem refreshCache_ratingFloor (input : List (String × List (String × CommunityData))) :
    ratingFloor (refreshCache input) := by
  unfold refreshCache
  refine foldl_invariant _ ratingFloor ?_ input _ ?_
  · intro st c hst
    refine foldl_invariant _ ratingFloor
      (fun st2 comm h2 => processCommunity_ratingFloor c.1 st2 comm h2) c.2 _ ?_
    intro m2 c2 sc hl
    simp only [lookupStored] at hl
    by_cases hm : m2 = c.1
    · subst hm
      rw [lookupAssoc_setAssoc, if_pos rfl] at hl
      simp [lookupAssoc] at hl
    · rw [lookupAssoc_setAssoc, if_neg hm] at hl
      exact hst m2 c2 sc hl
  · intro m2 c2 sc hl
    simp [lookupStored, lookupAssoc] at hl

theorem selectResults_rating (st : CommunityCacheState) (mr mc : Nat) (h : ratingFloor st) :
    ∀ (ms : List ((String × String) × Nat)) (seen : List String)
      (acc : List SearchResult),
      (∀ r ∈ acc, 4 ≤ r.community.rating) →
      ∀ res ∈ selectResults st mr mc ms seen acc, 4 ≤ res.community.rating := by
  intro ms
  induction ms with
  | nil => intro seen acc hacc res hres; exact hacc res hres
  | cons pr rest ih =>
    obtain ⟨key, score⟩ := pr
    intro seen acc hacc res hres
    simp only [selectResults] at hres
    by_cases h1 : mr ≤ acc.length
    · rw [if_pos h1] at hres
      exact hacc res hres
    · rw [if_neg h1] at hres
      by_cases h2 : key.1 ∈ seen ∧ mc ≤ seen.length
      · rw [if_pos h2] at hres
        exact ih seen acc hacc res hres
      · rw [if_neg h2] at hres
        cases hlook : (lookupAssoc st.communities key.1).bind
            (fun inner => lookupAssoc inner key.2) with
        | none =>
          rw [hlook] at hres
          exact ih seen acc hacc res hres
        | some c =>
          rw [hlook] at hres
          refine ih _ _ ?_ res hres
          intro r hr
          rcases List.mem_append.mp hr with hr2 | hr2
          · exact hacc r hr2
          · simp only [List.mem_singleton] at hr2
            rw [hr2]
            exact h key.1 key.2 c hlook

/-- Claim C9: (i) after any refresh, every stored community is rated at
least 4.0; (ii) a community whose report is missing or rated below 4.0
leaves the cache state — stored communities and keyword index —
completely unchanged, so only rating-≥-4 communities are ever entered;
(iii) every result `search` can return carries a stored community, hence
has rating ≥ 4.0.  Search does not mutate the state, so the invariant is
preserved by every operation after load. -/
theorem communityCacheRatingFloor :
    (∀ (input : List (String × List (String × CommunityData))),
      ratingFloor (refreshCache input))
    ∧ (∀ (communeId : String) (st : CommunityCacheState) (cid : String)
        (cd : CommunityData),
        (∀ rep, cd.report = some rep → rep.rating < 4) →
        processCommunity communeId st (cid, cd) = st)
    ∧ (∀ (input : List (String × List (String × CommunityData))) (q : String)
        (mr mc : Nat) (res : SearchResult),
        res ∈ searchCommunities (refreshCache input) q mr mc →
        4 ≤ res.community.rating) := by
  refine ⟨refreshCache_ratingFloor, ?_, ?_⟩
  · intro communeId st cid cd hlow
    cases hrep : cd.report with
    | none => simp [processCommunity, hrep]
    | some rep =>
      have hr := hlow rep hrep
      simp [processCommunity, hrep, hr]
  · intro input q mr mc res hres
    simp only [searchCommunities] at hres
    by_cases hq : (extractKeywords q).isEmpty
    · rw [if_pos hq] at hres
      exact absurd hres (List.not_mem_nil _)
    · rw [if_neg hq] at hres
      exact selectResults_rating _ mr mc (refreshCache_ratingFloor input) _ [] []
        (fun r hr => absurd hr (List.not_mem_nil _)) res hres

/-- Witness for claim C9 at concrete inputs: a rating-5 community is
stored and searchable (and rated ≥ 4), while a rating-3 community leaves
the state untouched. -/
theorem communityCacheRatingFloor_witness :
    ((4 : ℚ) ≤ (⟨"m", "0", "taxes locales", "budget", 5, [], []⟩
        : StoredCommunity).rating)
    ∧ processCommunity "m" ⟨[], []⟩ ("1", ⟨some ⟨"x", "y", 3⟩, [], []⟩) = ⟨[], []⟩
    ∧ ((4 : ℚ) ≤ ((⟨⟨"m", "0", "taxes locales", "budget", 5, [], []⟩, 3⟩
        : SearchResult).community.rating)) :=
  ⟨communityCacheRatingFloor.1
      [("m", [("0", ⟨some ⟨"taxes locales", "budget", 5⟩, [], []⟩)])] "m" "0"
      ⟨"m", "0", "taxes locales", "budget", 5, [], []⟩ (by decide),
   communityCacheRatingFloor.2.1 "m" ⟨[], []⟩ "1" ⟨some ⟨"x", "y", 3⟩, [], []⟩
      (fun rep h => by
        injection h with h2
        rw [← h2]
        decide),
   communityCacheRatingFloor.2.2
      [("m", [("0", ⟨some ⟨"taxes locales", "budget", 5⟩, [], []⟩)])] "taxes" 5 5
      ⟨⟨"m", "0", "taxes locales", "budget", 5, [], []⟩, 3⟩ (by decide)⟩

theorem extractKeywords_nodup (text : String) : (extractKeywords text).Nodup :=
  (List.nodup_dedup _).filter _

/-- Indexing a community under a duplicate-free keyword list adds exactly
one `(commune, community, score)` entry per keyword with positive score. -/
theorem keywordFold_entries (t s mid cid : String) :
    ∀ (kws : List String) (ki : List (String × List (String × String × Nat))) (k : String),
      kws.Nodup →
      (lookupAssoc (kws.foldl (indexCommunityKeyword t s mid cid) ki) k).getD []
        = (lookupAssoc ki k).getD []
          ++ (if k ∈ kws ∧ 0 < keywordScore t s k
              then [(mid, cid, keywordScore t s k)] else []) := by
  intro kws
  induction kws with
  | nil =>
    intro ki k _
    simp
  | cons kw kws ih =>
    intro ki k hnd
    obtain ⟨hnotin, hnd2⟩ := List.nodup_cons.mp hnd
    rw [List.foldl_cons, ih _ k hnd2]
    have hstep : indexCommunityKeyword t s mid cid ki kw
        = if 0 < keywordScore t s kw then appendAssoc ki kw (mid, cid, keywordScore t s kw)
          else ki := rfl
    rw [hstep]
    by_cases hk : k = kw
    · subst hk
      have hmem : ¬ (k ∈ kws ∧ 0 < keywordScore t s k) := fun h => hnotin h.1
      rw [if_neg hmem, List.append_nil]
      by_cases hs : 0 < keywordScore t s k
      · rw [if_pos hs, lookupAssoc_appendAssoc_getD, if_pos rfl,
          if_pos ⟨List.mem_cons_self _ _, hs⟩]
      · rw [if_neg hs, if_neg (fun h => hs h.2)]
        simp
    · have hiff : (k ∈ kw :: kws ∧ 0 < keywordScore t s k)
          ↔ (k ∈ kws ∧ 0 < keywordScore t s k) := by
        constructor
        · rintro ⟨h1, h2⟩
          rcases List.mem_cons.mp h1 with h3 | h3
          · exact absurd h3 hk
          · exact ⟨h3, h2⟩
        · rintro ⟨h1, h2⟩
          exact ⟨List.mem_cons_of_mem _ h1, h2⟩
      by_cases hs : 0 < keywordScore t s kw
      · rw [if_pos hs, lookupAssoc_appendAssoc_getD, if_neg hk]
        by_cases h2 : k ∈ kws ∧ 0 < keywordScore t s k
        · rw [if_pos h2, if_pos (hiff.mpr h2)]
        · rw [if_neg h2, if_neg (fun h => h2 (hiff.mp h))]
      · rw [if_neg hs]
        by_cases h2 : k ∈ kws ∧ 0 < keywordScore t s k
        · rw [if_pos h2, if_pos (hiff.mpr h2)]
        · rw [if_neg h2, if_neg (fun h => h2 (hiff.mp h))]

theorem processCommunity_keywordIndex (mid : String) (st : CommunityCacheState)
    (cid : String) (cd : CommunityData) (rep : ReportJson)
    (hrep : cd.report = some rep) (hr : ¬ rep.rating < 4) :
    (processCommunity mid st (cid, cd)).keywordIndex
      = (extractKeywords (rep.title ++ " " ++ rep.summary)).foldl
          (indexCommunityKeyword rep.title rep.summary mid cid) st.keywordIndex := by
  simp only [processCommunity, hrep]
  rw [if_neg hr]

/-- Claim C6: for two stored communities differing in whether the query
keyword appears in the title or only in the summary, the search score
aggregation assigns the title-match community its keyword score of at
least 3 and the summary-only community exactly 1, so the title match
scores strictly higher. -/
theorem keywordSearchTitleBeatsSummary
    (m i1 i2 t1 s1 t2 s2 : String) (r1 r2 : ℚ)
    (n1 ch1 n2 ch2 : List String) (q k : String)
    (hne : i1 ≠ i2)
    (hr1 : ¬ r1 < 4) (hr2 : ¬ r2 < 4)
    (hq : extractKeywords q = [k])
    (hk1 : k ∈ extractKeywords (t1 ++ " " ++ s1))
    (hk2 : k ∈ extractKeywords (t2 ++ " " ++ s2))
    (ht1 : substrB k (lowerStr t1) = true)
    (ht2 : substrB k (lowerStr t2) = false)
    (hs2 : substrB k (lowerStr s2) = true) :
    lookupAssoc (accumScores (refreshCache
        [(m, [(i1, ⟨some ⟨t1, s1, r1⟩, n1, ch1⟩), (i2, ⟨some ⟨t2, s2, r2⟩, n2, ch2⟩)])])
        (extractKeywords q)) (m, i1) = some (keywordScore t1 s1 k)
    ∧ lookupAssoc (accumScores (refreshCache
        [(m, [(i1, ⟨some ⟨t1, s1, r1⟩, n1, ch1⟩), (i2, ⟨some ⟨t2, s2, r2⟩, n2, ch2⟩)])])
        (extractKeywords q)) (m, i2) = some (keywordScore t2 s2 k)
    ∧ keywordScore t2 s2 k < keywordScore t1 s1 k := by
  have hw1 : 3 ≤ keywordScore t1 s1 k := by
    unfold keywordScore
    rw [ht1, if_pos rfl]
    exact Nat.le_add_right 3 _
  have hw2 : keywordScore t2 s2 k = 1 := by
    unfold keywordScore
    rw [ht2, hs2]
    rfl
  have hp1 : 0 < keywordScore t1 s1 k := lt_of_lt_of_le (by decide) hw1
  have hp2 : 0 < keywordScore t2 s2 k := by rw [hw2]; decide
  set st := refreshCache
    [(m, [(i1, ⟨some ⟨t1, s1, r1⟩, n1, ch1⟩), (i2, ⟨some ⟨t2, s2, r2⟩, n2, ch2⟩)])]
    with hst
  have hki : st.keywordIndex
      = (extractKeywords (t2 ++ " " ++ s2)).foldl (indexCommunityKeyword t2 s2 m i2)
          ((extractKeywords (t1 ++ " " ++ s1)).foldl (indexCommunityKeyword t1 s1 m i1)
            []) := by
    rw [hst]
    simp only [refreshCache, List.foldl_cons, List.foldl_nil]
    rw [processCommunity_keywordIndex m _ i2 _ ⟨t2, s2, r2⟩ rfl hr2,
      processCommunity_keywordIndex m _ i1 _ ⟨t1, s1, r1⟩ rfl hr1]
  have hentry : (lookupAssoc st.keywordIndex k).getD []
      = [(m, i1, keywordScore t1 s1 k), (m, i2, keywordScore t2 s2 k)] := by
    rw [hki, keywordFold_entries t2 s2 m i2 _ _ k (extractKeywords_nodup _),
      keywordFold_entries t1 s1 m i1 _ _ k (extractKeywords_nodup _)]
    rw [if_pos ⟨hk1, hp1⟩, if_pos ⟨hk2, hp2⟩]
    simp [lookupAssoc]
  rw [hq]
  have hadd1 : addScore [] (m, i1) (keywordScore t1 s1 k)
      = [((m, i1), keywordScore t1 s1 k)] := rfl
  have hkeyne : ¬ ((m, i2) : String × String) = (m, i1) := by
    intro h
    exact hne (congrArg Prod.snd h).symm
  have hacc : accumScores st [k]
      = [((m, i1), keywordScore t1 s1 k), ((m, i2), keywordScore t2 s2 k)] := by
    simp only [accumScores, List.foldl_cons, List.foldl_nil]
    rw [hentry]
    simp only [List.foldl_cons, List.foldl_nil, hadd1]
    simp only [addScore]
    rw [if_neg hkeyne]
  rw [hacc]
  refine ⟨?_, ?_, ?_⟩
  · rw [lookupAssoc, if_pos rfl]
  · rw [lookupAssoc, if_neg hkeyne, lookupAssoc, if_pos rfl]
  · rw [hw2]
    omega

/-- Witness for claim C6 at concrete strings: query `"taxes"`, title match
`"taxes locales"` vs summary-only match in `"les taxes"`. -/
theorem keywordSearchTitleBeatsSummary_witness :
    lookupAssoc (accumScores (refreshCache
        [("lyon", [("0", ⟨some ⟨"taxes locales", "ecole", 5⟩, [], []⟩),
          ("1", ⟨some ⟨"ecole municipale", "les taxes", 5⟩, [], []⟩)])])
        (extractKeywords "taxes")) ("lyon", "0")
        = some (keywordScore "taxes locales" "ecole" "taxes")
    ∧ lookupAssoc (accumScores (refreshCache
        [("lyon", [("0", ⟨some ⟨"taxes locales", "ecole", 5⟩, [], []⟩),
          ("1", ⟨some ⟨"ecole municipale", "les taxes", 5⟩, [], []⟩)])])
        (extractKeywords "taxes")) ("lyon", "1")
        = some (keywordScore "ecole municipale" "les taxes" "taxes")
    ∧ keywordScore "ecole municipale" "les taxes" "taxes"
        < keywordScore "taxes locales" "ecole" "taxes" :=
  keywordSearchTitleBeatsSummary "lyon" "0" "1" "taxes locales" "ecole"
    "ecole municipale" "les taxes" 5 5 [] [] [] [] "taxes" "taxes"
    (by decide) (by decide) (by decide) (by decide) (by decide) (by decide)
    (by decide) (by decide) (by decide)

end GraphRAGSpec
